import Mathlib

/-!
# Verification of the treap-based `TreapSet` / `TreapMap`

Shallow embedding of `src/Treap-topic/Treapmap.cpp`: a treap (randomized
binary search tree) implementing a set of `int` keys (`TreapSet`, with a
`nodeCount` cardinality field) and a map from `int` keys to `string` values
(`TreapMap`).  Machine `int`s are modelled as `Int` (no arithmetic is
performed on keys or priorities, only comparisons, so overflow is
irrelevant); `rand()` draws are modelled as explicit priority parameters.
`Node*` pointers are modelled as an inductive tree (`nullptr` = `leaf`);
a returned `Node*` (as in `findNode`) is modelled as an `Option` of the
subtree rooted at that node.  Member-variable mutation of `nodeCount`
inside the recursive helpers is modelled by returning the count delta
alongside the tree.
-/

set_option maxHeartbeats 1000000

namespace Treap

/-- The node structure. `TreapMap` stores a `string` value per node; `TreapSet`
stores none, which we model with `V := Unit`. -/
inductive Tree (V : Type) where
  | leaf : Tree V
  | node (key : Int) (value : V) (priority : Int) (left : Tree V) (right : Tree V) : Tree V
deriving DecidableEq

open Tree

/-- `typedef string Value` of the map. -/
abbrev Value := String

/-- Number of nodes of a subtree. -/
def size {V : Type} : Tree V → Nat
  | leaf => 0
  | node _ _ _ l r => 1 + size l + size r

/-- Height of a subtree (`leaf` has height 0). -/
def height {V : Type} : Tree V → Nat
  | leaf => 0
  | node _ _ _ l r => 1 + max (height l) (height r)

/-- In-order traversal of the keys. -/
def keys {V : Type} : Tree V → List Int
  | leaf => []
  | node k _ _ l r => keys l ++ k :: keys r

/-- In-order traversal of the key/value bindings. -/
def entries {V : Type} : Tree V → List (Int × V)
  | leaf => []
  | node k v _ l r => entries l ++ (k, v) :: entries r

/-- All keys of the subtree satisfy `f`. -/
def allKeys {V : Type} (f : Int → Bool) : Tree V → Bool
  | leaf => true
  | node k _ _ l r => f k && allKeys f l && allKeys f r

/-- The binary-search-tree invariant: left keys below the node key, right keys
above, recursively. -/
def bst {V : Type} : Tree V → Bool
  | leaf => true
  | node k _ _ l r =>
      allKeys (fun x => decide (x < k)) l && allKeys (fun x => decide (k < x)) r &&
        bst l && bst r

/-- All priorities of the subtree are at most `b`. -/
def ple {V : Type} : Tree V → Int → Bool
  | leaf, _ => true
  | node _ _ p l r, b => decide (p ≤ b) && ple l b && ple r b

/-- The root priority (if any) is at most `b`. -/
def rootPrioLe {V : Type} : Tree V → Int → Bool
  | leaf, _ => true
  | node _ _ p _ _, b => decide (p ≤ b)

/-- The max-heap invariant as the code maintains it: every node's priority is
greater than or equal to the priority of each present child. -/
def heap {V : Type} : Tree V → Bool
  | leaf => true
  | node _ _ p l r => rootPrioLe l p && rootPrioLe r p && heap l && heap r

/-- The root priority (if any) is strictly below `b`. -/
def rootPrioLt {V : Type} : Tree V → Int → Bool
  | leaf, _ => true
  | node _ _ p _ _, b => decide (p < b)

/-- The heap invariant in the strict form the spec states: every node's
priority is strictly greater than the priority of each present child. -/
def strictHeap {V : Type} : Tree V → Bool
  | leaf => true
  | node _ _ p l r => rootPrioLt l p && rootPrioLt r p && strictHeap l && strictHeap r

/-- `rotateRight(y)` (lines 281-290 / 43-49): promotes the left child `x`;
`x`'s right subtree becomes `y`'s left subtree, `y` becomes `x`'s right child.
The C++ code dereferences `y->left` unconditionally; the embedding is total
and returns the input unchanged when the pattern (a node with a node as left
child) does not apply, which never happens at the call sites. -/
def rotateRight {V : Type} : Tree V → Tree V
  | node k v p (node lk lv lp ll lr) r => node lk lv lp ll (node k v p lr r)
  | t => t

/-- `rotateLeft(x)` (lines 302-311 / 52-57): promotes the right child `y`. -/
def rotateLeft {V : Type} : Tree V → Tree V
  | node k v p l (node rk rv rp rl rr) => node rk rv rp (node k v p l rl) rr
  | t => t

/-- The heap-repair step of `insertRecursive` after recursing left:
`if (node->left != nullptr && node->left->priority > node->priority)
 node = rotateRight(node);` -/
def fixLeft {V : Type} : Tree V → Tree V
  | node k v p (node lk lv lp ll lr) r =>
      if lp > p then rotateRight (node k v p (node lk lv lp ll lr) r)
      else node k v p (node lk lv lp ll lr) r
  | t => t

/-- The heap-repair step of `insertRecursive` after recursing right:
`if (node->right != nullptr && node->right->priority > node->priority)
 node = rotateLeft(node);` -/
def fixRight {V : Type} : Tree V → Tree V
  | node k v p l (node rk rv rp rl rr) =>
      if rp > p then rotateLeft (node k v p l (node rk rv rp rl rr))
      else node k v p l (node rk rv rp rl rr)
  | t => t

/-- `TreapMap::insertRecursive` (lines 66-91).  The priority `p` the new node
would draw from `rand()` is passed explicitly; it is consumed only at the
single `new Node` site.  On an equal key the value is overwritten in place. -/
def insertRecursive {V : Type} : Tree V → Int → V → Int → Tree V
  | leaf, k, v, p => node k v p leaf leaf
  | node nk nv np l r, k, v, p =>
      if k < nk then fixLeft (node nk nv np (insertRecursive l k v p) r)
      else if nk < k then fixRight (node nk nv np l (insertRecursive r k v p))
      else node nk v np l r

/-- `removeRecursive` (lines 97-128 / 352-393, identical logic in both
classes).  In the two-child case the node is rotated toward its
higher-priority child (the two branches below are `rotateRight` resp.
`rotateLeft` applied to the node, written out) and removal continues in the
subtree the key now falls under. -/
def removeRecursive {V : Type} : Tree V → Int → Tree V
  | leaf, _ => leaf
  | node nk nv np l r, k =>
      if k < nk then node nk nv np (removeRecursive l k) r
      else if nk < k then node nk nv np l (removeRecursive r k)
      else
        match l, r with
        | leaf, _ => r
        | node lk lv lp ll lr, leaf => node lk lv lp ll lr
        | node lk lv lp ll lr, node rk rv rp rl rr =>
            if lp > rp then
              node lk lv lp ll (removeRecursive (node nk nv np lr (node rk rv rp rl rr)) k)
            else
              node rk rv rp (removeRecursive (node nk nv np (node lk lv lp ll lr) rl) k) rr
termination_by t _ => size t
decreasing_by all_goals (simp [size]; try omega)

/-- `TreapMap::findNode` (lines 134-146): returns the node holding `k`
(modelled as the subtree rooted there), or `nullptr`. -/
def findNode {V : Type} : Tree V → Int → Option (Tree V)
  | leaf, _ => none
  | node nk nv np l r, k =>
      if k = nk then some (node nk nv np l r)
      else if k < nk then findNode l k
      else findNode r k

/-- The value stored at the root of a subtree, if any. -/
def rootVal {V : Type} : Tree V → Option V
  | leaf => none
  | node _ v _ _ _ => some v

/-- The value bound to `k`, if present: `findNode` followed by reading
`->value`. -/
def findValue {V : Type} (t : Tree V) (k : Int) : Option V :=
  (findNode t k).bind rootVal

/-- `TreapMap::find` (lines 190-196): the value bound to `k`, or
`defaultValue` when `findNode` returns `nullptr`. -/
def find {V : Type} (t : Tree V) (k : Int) (d : V) : V :=
  match findNode t k with
  | none => d
  | some s =>
      match s with
      | leaf => d
      | node _ v _ _ _ => v

/-- `TreapMap::contains`: `findNode(root, key) != nullptr`. -/
def contains {V : Type} (t : Tree V) (k : Int) : Bool :=
  (findNode t k).isSome

/-- `TreapSet::memberRecursive` (lines 399-411): plain BST search. -/
def memberRecursive : Tree Unit → Int → Bool
  | leaf, _ => false
  | node nk _ _ l r, k =>
      if k = nk then true
      else if k < nk then memberRecursive l k
      else memberRecursive r k

/-- `TreapSet::insertRecursive` (lines 320-344): as the map version but with
no stored value and no overwrite, and incrementing `nodeCount` at the
`new Node` site; the returned `Int` is the total increment. -/
def insertRecursiveS : Tree Unit → Int → Int → Tree Unit × Int
  | leaf, k, p => (node k () p leaf leaf, 1)
  | node nk nv np l r, k, p =>
      if k < nk then
        (fixLeft (node nk nv np (insertRecursiveS l k p).1 r), (insertRecursiveS l k p).2)
      else if nk < k then
        (fixRight (node nk nv np l (insertRecursiveS r k p).1), (insertRecursiveS r k p).2)
      else (node nk nv np l r, 0)

/-- `TreapSet::removeRecursive` (lines 352-393): as the map version but
decrementing `nodeCount` at each `delete` site; the returned `Int` is the
total decrement. -/
def removeRecursiveS : Tree Unit → Int → Tree Unit × Int
  | leaf, _ => (leaf, 0)
  | node nk nv np l r, k =>
      if k < nk then (node nk nv np (removeRecursiveS l k).1 r, (removeRecursiveS l k).2)
      else if nk < k then (node nk nv np l (removeRecursiveS r k).1, (removeRecursiveS r k).2)
      else
        match l, r with
        | leaf, _ => (r, 1)
        | node lk lv lp ll lr, leaf => (node lk lv lp ll lr, 1)
        | node lk lv lp ll lr, node rk rv rp rl rr =>
            if lp > rp then
              (node lk lv lp ll (removeRecursiveS (node nk nv np lr (node rk rv rp rl rr)) k).1,
               (removeRecursiveS (node nk nv np lr (node rk rv rp rl rr)) k).2)
            else
              (node rk rv rp (removeRecursiveS (node nk nv np (node lk lv lp ll lr) rl) k).1 rr,
               (removeRecursiveS (node nk nv np (node lk lv lp ll lr) rl) k).2)
termination_by t _ => size t
decreasing_by all_goals (simp [size]; try omega)

/-- The value-erased skeleton of a tree: keys, priorities and shape. -/
def skeleton {V : Type} : Tree V → Tree Unit
  | leaf => leaf
  | node k _ p l r => node k () p (skeleton l) (skeleton r)

/-- `class TreapSet` state: the root pointer and the `nodeCount` field. -/
structure TreapSet where
  root : Tree Unit
  nodeCount : Int
deriving DecidableEq

/-- The `TreapSet` constructor (lines 197-200): empty root, count zero. -/
def TreapSet.empty : TreapSet := ⟨Tree.leaf, 0⟩

/-- `TreapSet::size` (lines 442-444). -/
def TreapSet.size (s : TreapSet) : Int := s.nodeCount

/-- `TreapSet::member`. -/
def TreapSet.member (s : TreapSet) (k : Int) : Bool := memberRecursive s.root k

/-- `TreapSet::insert` (lines 447-453): only inserts when `!member(key)`. -/
def TreapSet.insert (s : TreapSet) (k : Int) (p : Int) : TreapSet :=
  if s.member k then s
  else ⟨(insertRecursiveS s.root k p).1, s.nodeCount + (insertRecursiveS s.root k p).2⟩

/-- `TreapSet::remove` (lines 456-461): only removes when `member(key)`. -/
def TreapSet.remove (s : TreapSet) (k : Int) : TreapSet :=
  if s.member k then ⟨(removeRecursiveS s.root k).1, s.nodeCount - (removeRecursiveS s.root k).2⟩
  else s

/-- `TreapSet::clear`: releases all nodes, resets root and count. -/
def TreapSet.clear (_ : TreapSet) : TreapSet := ⟨Tree.leaf, 0⟩

/-- `class TreapMap` state: the root pointer. -/
structure TreapMap where
  root : Tree Value
deriving DecidableEq

/-- The `TreapMap` constructor: empty root. -/
def TreapMap.empty : TreapMap := ⟨Tree.leaf⟩

/-- `TreapMap::insert`. -/
def TreapMap.insert (m : TreapMap) (k : Int) (v : Value) (p : Int) : TreapMap :=
  ⟨insertRecursive m.root k v p⟩

/-- `TreapMap::remove`. -/
def TreapMap.remove (m : TreapMap) (k : Int) : TreapMap :=
  ⟨removeRecursive m.root k⟩

/-- `TreapMap::find`. -/
def TreapMap.find (m : TreapMap) (k : Int) (d : Value) : Value := Treap.find m.root k d

/-- `TreapMap::contains`. -/
def TreapMap.contains (m : TreapMap) (k : Int) : Bool := Treap.contains m.root k

/-- `TreapMap::clear`. -/
def TreapMap.clear (_ : TreapMap) : TreapMap := ⟨Tree.leaf⟩

/-- Set states reachable from an empty `TreapSet` by the public operations,
with arbitrary priorities standing for the `rand()` draws. -/
inductive ReachS : TreapSet → Prop where
  | empty : ReachS TreapSet.empty
  | insert (s : TreapSet) (k p : Int) : ReachS s → ReachS (s.insert k p)
  | remove (s : TreapSet) (k : Int) : ReachS s → ReachS (s.remove k)
  | clear (s : TreapSet) : ReachS s → ReachS s.clear

/-- Map states reachable from an empty `TreapMap` by the public operations. -/
inductive ReachM : TreapMap → Prop where
  | empty : ReachM TreapMap.empty
  | insert (m : TreapMap) (k : Int) (v : Value) (p : Int) : ReachM m → ReachM (m.insert k v p)
  | remove (m : TreapMap) (k : Int) : ReachM m → ReachM (m.remove k)
  | clear (m : TreapMap) : ReachM m → ReachM m.clear

/-- A public `TreapSet` operation, without the priority the run will draw. -/
inductive SetOp where
  | ins (k : Int)
  | rem (k : Int)
  | clr
deriving DecidableEq

/-- Apply one set operation, drawing priority `p` if it is an insertion. -/
def applyS (s : TreapSet) (op : SetOp) (p : Int) : TreapSet :=
  match op with
  | SetOp.ins k => s.insert k p
  | SetOp.rem k => s.remove k
  | SetOp.clr => s.clear

/-- Run a sequence of set operations; `ps` is the stream of random
priorities, one consumed per operation. -/
def runS : TreapSet → List SetOp → List Int → TreapSet
  | s, [], _ => s
  | s, op :: ops, ps => runS (applyS s op (ps.headD 0)) ops ps.tail

/-- A public `TreapMap` operation, without the priority. -/
inductive MapOp where
  | ins (k : Int) (v : Value)
  | rem (k : Int)
  | clr
deriving DecidableEq

/-- Apply one map operation, drawing priority `p` if it is an insertion. -/
def applyM (m : TreapMap) (op : MapOp) (p : Int) : TreapMap :=
  match op with
  | MapOp.ins k v => m.insert k v p
  | MapOp.rem k => m.remove k
  | MapOp.clr => m.clear

/-- Run a sequence of map operations with priority stream `ps`. -/
def runM : TreapMap → List MapOp → List Int → TreapMap
  | m, [], _ => m
  | m, op :: ops, ps => runM (applyM m op (ps.headD 0)) ops ps.tail

/-- The mathematical set of keys a sequence of set operations leaves behind. -/
def absSet : Finset Int → List SetOp → Finset Int
  | A, [] => A
  | A, SetOp.ins k :: ops => absSet (insert k A) ops
  | A, SetOp.rem k :: ops => absSet (A.erase k) ops
  | _, SetOp.clr :: ops => absSet ∅ ops

/-- The mathematical key-value binding a sequence of map operations leaves. -/
def absMap : (Int → Option Value) → List MapOp → (Int → Option Value)
  | f, [] => f
  | f, MapOp.ins k v :: ops => absMap (fun x => if x = k then some v else f x) ops
  | f, MapOp.rem k :: ops => absMap (fun x => if x = k then none else f x) ops
  | _, MapOp.clr :: ops => absMap (fun _ => none) ops

/-- Well-formedness: both treap invariants, as maintained by the code. -/
def Wf {V : Type} (t : Tree V) : Prop := bst t = true ∧ heap t = true

/-- Depth (number of edges from the root) at which the BST search for `k`
finds it, if it does. -/
def depthOf {V : Type} : Tree V → Int → Option Nat
  | leaf, _ => none
  | node nk _ _ l r, k =>
      if k = nk then some 0
      else if k < nk then (depthOf l k).map (· + 1)
      else (depthOf r k).map (· + 1)

/-- Number of calls (initial call included) `removeRecursive` performs,
following its exact recursion structure. -/
def removeSteps {V : Type} : Tree V → Int → Nat
  | leaf, _ => 1
  | node nk nv np l r, k =>
      if k < nk then 1 + removeSteps l k
      else if nk < k then 1 + removeSteps r k
      else
        match l, r with
        | leaf, _ => 1
        | node _ _ _ _ _, leaf => 1
        | node lk lv lp ll lr, node rk rv rp rl rr =>
            if lp > rp then
              1 + removeSteps (node nk nv np lr (node rk rv rp rl rr)) k
            else
              1 + removeSteps (node nk nv np (node lk lv lp ll lr) rl) k
termination_by t _ => size t
decreasing_by all_goals (simp [size]; try omega)

/-- The `TreapSet` representation invariant the code maintains: both treap
invariants on the tree, and `nodeCount` equal to the number of nodes. -/
def SetInv (s : TreapSet) : Prop :=
  Wf s.root ∧ s.nodeCount = (size s.root : Int)

/-- The `TreapMap` representation invariant. -/
def MapInv (m : TreapMap) : Prop := Wf m.root

/-- Simulation relation between a concrete `TreapSet` and the mathematical
set of its keys. -/
def RS (s : TreapSet) (A : Finset Int) : Prop :=
  SetInv s ∧ ∀ x, s.member x = true ↔ x ∈ A

/-- Simulation relation between a concrete `TreapMap` and the mathematical
partial map it represents. -/
def RM (m : TreapMap) (f : Int → Option Value) : Prop :=
  MapInv m ∧ ∀ x, findValue m.root x = f x


theorem findValue_leaf {V : Type} (k : Int) : findValue (leaf : Tree V) k = none := rfl

theorem findValue_node {V : Type} (nk : Int) (nv : V) (np : Int) (l r : Tree V) (k : Int) :
    findValue (node nk nv np l r) k =
      if k = nk then some nv else if k < nk then findValue l k else findValue r k := by
  simp only [findValue, findNode]
  split_ifs <;> rfl

theorem findNode_some {V : Type} (t : Tree V) (k : Int) (s : Tree V)
    (h : findNode t k = some s) : ∃ v p l r, s = node k v p l r := by
  induction t with
  | leaf => simp [findNode] at h
  | node nk nv np l r ihl ihr =>
      rw [findNode] at h
      split_ifs at h with h1 h2
      · subst h1
        exact ⟨nv, np, l, r, (Option.some_inj.mp h).symm⟩
      · exact ihl h
      · exact ihr h

theorem find_eq_findValue {V : Type} (t : Tree V) (k : Int) (d : V) :
    find t k d = (findValue t k).getD d := by
  unfold find findValue
  cases h : findNode t k with
  | none => rfl
  | some s =>
      obtain ⟨v, p, l, r, rfl⟩ := findNode_some t k s h
      rfl

theorem contains_eq_isSome {V : Type} (t : Tree V) (k : Int) :
    contains t k = (findValue t k).isSome := by
  unfold contains findValue
  cases h : findNode t k with
  | none => rfl
  | some s =>
      obtain ⟨v, p, l, r, rfl⟩ := findNode_some t k s h
      rfl

theorem memberRecursive_eq (t : Tree Unit) (k : Int) :
    memberRecursive t k = (findValue t k).isSome := by
  induction t with
  | leaf => rfl
  | node nk nv np l r ihl ihr =>
      rw [memberRecursive, findValue_node]
      split_ifs <;> simp [ihl, ihr]

theorem allKeys_iff {V : Type} (f : Int → Bool) (t : Tree V) :
    allKeys f t = true ↔ ∀ x ∈ keys t, f x = true := by
  induction t with
  | leaf => simp [allKeys, keys]
  | node nk nv np l r ihl ihr =>
      simp only [allKeys, keys, Bool.and_eq_true, ihl, ihr, List.mem_append, List.mem_cons]
      constructor
      · rintro ⟨⟨hk, hl⟩, hr⟩ x (hx | hx | hx)
        · exact hl x hx
        · exact hx ▸ hk
        · exact hr x hx
      · intro h
        exact ⟨⟨h nk (Or.inr (Or.inl rfl)), fun x hx => h x (Or.inl hx)⟩,
          fun x hx => h x (Or.inr (Or.inr hx))⟩

theorem allKeys_mono {V : Type} {f g : Int → Bool} (hfg : ∀ x, f x = true → g x = true)
    {t : Tree V} (h : allKeys f t = true) : allKeys g t = true := by
  rw [allKeys_iff] at h ⊢
  exact fun x hx => hfg x (h x hx)

theorem bst_node_iff {V : Type} (k : Int) (v : V) (p : Int) (l r : Tree V) :
    bst (node k v p l r) = true ↔
      allKeys (fun x => decide (x < k)) l = true ∧
        allKeys (fun x => decide (k < x)) r = true ∧ bst l = true ∧ bst r = true := by
  simp [bst, Bool.and_eq_true, and_assoc]

theorem heap_node_iff {V : Type} (k : Int) (v : V) (p : Int) (l r : Tree V) :
    heap (node k v p l r) = true ↔
      rootPrioLe l p = true ∧ rootPrioLe r p = true ∧ heap l = true ∧ heap r = true := by
  simp [heap, Bool.and_eq_true, and_assoc]

theorem ple_node_iff {V : Type} (k : Int) (v : V) (p : Int) (l r : Tree V) (b : Int) :
    ple (node k v p l r) b = true ↔ p ≤ b ∧ ple l b = true ∧ ple r b = true := by
  simp [ple, Bool.and_eq_true, and_assoc]

theorem ple_mono {V : Type} {t : Tree V} {a b : Int} (h : ple t a = true) (hab : a ≤ b) :
    ple t b = true := by
  induction t with
  | leaf => rfl
  | node k v p l r ihl ihr =>
      rw [ple_node_iff] at h ⊢
      exact ⟨le_trans h.1 hab, ihl h.2.1, ihr h.2.2⟩

theorem rootPrioLe_of_ple {V : Type} {t : Tree V} {b : Int} (h : ple t b = true) :
    rootPrioLe t b = true := by
  cases t with
  | leaf => rfl
  | node k v p l r =>
      rw [ple_node_iff] at h
      simpa [rootPrioLe] using h.1

theorem rootPrioLe_mono {V : Type} {t : Tree V} {a b : Int} (h : rootPrioLe t a = true)
    (hab : a ≤ b) : rootPrioLe t b = true := by
  cases t with
  | leaf => rfl
  | node k v p l r =>
      simp only [rootPrioLe, decide_eq_true_eq] at h ⊢
      omega

theorem ple_of_heap {V : Type} {t : Tree V} {b : Int} (hh : heap t = true)
    (hr : rootPrioLe t b = true) : ple t b = true := by
  induction t with
  | leaf => rfl
  | node k v p l r ihl ihr =>
      rw [heap_node_iff] at hh
      simp only [rootPrioLe, decide_eq_true_eq] at hr
      rw [ple_node_iff]
      exact ⟨hr, ihl hh.2.2.1 (rootPrioLe_mono hh.1 hr),
        ihr hh.2.2.2 (rootPrioLe_mono hh.2.1 hr)⟩

theorem keys_rotateRight {V : Type} (t : Tree V) : keys (rotateRight t) = keys t := by
  cases t with
  | leaf => rfl
  | node k v p l r =>
      cases l with
      | leaf => rfl
      | node lk lv lp ll lr => simp [rotateRight, keys, List.append_assoc]

theorem keys_rotateLeft {V : Type} (t : Tree V) : keys (rotateLeft t) = keys t := by
  cases t with
  | leaf => rfl
  | node k v p l r =>
      cases r with
      | leaf => rfl
      | node rk rv rp rl rr => simp [rotateLeft, keys, List.append_assoc]

theorem keys_fixLeft {V : Type} (t : Tree V) : keys (fixLeft t) = keys t := by
  cases t with
  | leaf => rfl
  | node k v p l r =>
      cases l with
      | leaf => rfl
      | node lk lv lp ll lr =>
          rw [fixLeft]
          split_ifs with h
          · rw [keys_rotateRight]
          · rfl

theorem keys_fixRight {V : Type} (t : Tree V) : keys (fixRight t) = keys t := by
  cases t with
  | leaf => rfl
  | node k v p l r =>
      cases r with
      | leaf => rfl
      | node rk rv rp rl rr =>
          rw [fixRight]
          split_ifs with h
          · rw [keys_rotateLeft]
          · rfl

theorem size_eq_length_keys {V : Type} (t : Tree V) : size t = (keys t).length := by
  induction t with
  | leaf => rfl
  | node k v p l r ihl ihr => simp [size, keys, ihl, ihr]; omega

theorem allKeys_node_iff {V : Type} (f : Int → Bool) (k : Int) (v : V) (p : Int)
    (l r : Tree V) :
    allKeys f (node k v p l r) = true ↔
      f k = true ∧ allKeys f l = true ∧ allKeys f r = true := by
  simp [allKeys, Bool.and_eq_true, and_assoc]

theorem bst_rotateRight {V : Type} {t : Tree V} (h : bst t = true) :
    bst (rotateRight t) = true := by
  cases t with
  | leaf => exact h
  | node k v p l r =>
      cases l with
      | leaf => exact h
      | node lk lv lp ll lr =>
          rw [bst_node_iff, allKeys_node_iff] at h
          obtain ⟨⟨hlk, hll, hlr⟩, hr, hbl, hbr⟩ := h
          rw [bst_node_iff] at hbl
          obtain ⟨hbll, hblr, hLL, hLR⟩ := hbl
          simp only [decide_eq_true_eq] at hlk
          rw [rotateRight, bst_node_iff, allKeys_node_iff, bst_node_iff]
          refine ⟨hbll, ⟨by simp [hlk], hblr, allKeys_mono ?_ hr⟩, hLL, hlr, hr, hLR, hbr⟩
          intro x hx
          simp only [decide_eq_true_eq] at hx ⊢
          omega

theorem bst_rotateLeft {V : Type} {t : Tree V} (h : bst t = true) :
    bst (rotateLeft t) = true := by
  cases t with
  | leaf => exact h
  | node k v p l r =>
      cases r with
      | leaf => exact h
      | node rk rv rp rl rr =>
          rw [bst_node_iff, allKeys_node_iff] at h
          obtain ⟨hl, ⟨hrk, hrl, hrr⟩, hbl, hbr⟩ := h
          rw [bst_node_iff] at hbr
          obtain ⟨hbrl, hbrr, hRL, hRR⟩ := hbr
          simp only [decide_eq_true_eq] at hrk
          rw [rotateLeft, bst_node_iff, allKeys_node_iff, bst_node_iff]
          refine ⟨⟨by simp [hrk], allKeys_mono ?_ hl, hbrl⟩, hbrr, ⟨hl, hrl, hbl, hRL⟩, hRR⟩
          intro x hx
          simp only [decide_eq_true_eq] at hx ⊢
          omega

theorem bst_fixLeft {V : Type} {t : Tree V} (h : bst t = true) : bst (fixLeft t) = true := by
  cases t with
  | leaf => exact h
  | node k v p l r =>
      cases l with
      | leaf => exact h
      | node lk lv lp ll lr =>
          rw [fixLeft]
          split_ifs with hp
          · exact bst_rotateRight h
          · exact h

theorem bst_fixRight {V : Type} {t : Tree V} (h : bst t = true) : bst (fixRight t) = true := by
  cases t with
  | leaf => exact h
  | node k v p l r =>
      cases r with
      | leaf => exact h
      | node rk rv rp rl rr =>
          rw [fixRight]
          split_ifs with hp
          · exact bst_rotateLeft h
          · exact h

theorem findValue_rotR {V : Type} (nk : Int) (nv : V) (np lk : Int) (lv : V) (lp : Int)
    (ll lr r : Tree V) (h : lk < nk) (x : Int) :
    findValue (node lk lv lp ll (node nk nv np lr r)) x =
      findValue (node nk nv np (node lk lv lp ll lr) r) x := by
  simp only [findValue_node]
  split_ifs <;> first | rfl | omega

theorem findValue_rotL {V : Type} (nk : Int) (nv : V) (np rk : Int) (rv : V) (rp : Int)
    (l rl rr : Tree V) (h : nk < rk) (x : Int) :
    findValue (node rk rv rp (node nk nv np l rl) rr) x =
      findValue (node nk nv np l (node rk rv rp rl rr)) x := by
  simp only [findValue_node]
  split_ifs <;> first | rfl | omega

theorem findValue_fixLeft {V : Type} (nk : Int) (nv : V) (np : Int) (l r : Tree V)
    (hl : allKeys (fun x => decide (x < nk)) l = true) (x : Int) :
    findValue (fixLeft (node nk nv np l r)) x = findValue (node nk nv np l r) x := by
  cases l with
  | leaf => rfl
  | node lk lv lp ll lr =>
      rw [fixLeft]
      split_ifs with hp
      · rw [allKeys_node_iff] at hl
        have hlk : lk < nk := by simpa using hl.1
        rw [rotateRight]
        exact findValue_rotR nk nv np lk lv lp ll lr r hlk x
      · rfl

theorem findValue_fixRight {V : Type} (nk : Int) (nv : V) (np : Int) (l r : Tree V)
    (hr : allKeys (fun x => decide (nk < x)) r = true) (x : Int) :
    findValue (fixRight (node nk nv np l r)) x = findValue (node nk nv np l r) x := by
  cases r with
  | leaf => rfl
  | node rk rv rp rl rr =>
      rw [fixRight]
      split_ifs with hp
      · rw [allKeys_node_iff] at hr
        have hrk : nk < rk := by simpa using hr.1
        rw [rotateLeft]
        exact findValue_rotL nk nv np rk rv rp l rl rr hrk x
      · rfl

theorem findValue_none_of_allKeys {V : Type} {f : Int → Bool} {t : Tree V} {k : Int}
    (h : allKeys f t = true) (hk : f k = false) : findValue t k = none := by
  induction t with
  | leaf => rfl
  | node nk nv np l r ihl ihr =>
      rw [allKeys_node_iff] at h
      rw [findValue_node]
      split_ifs with h1 h2
      · subst h1
        simp [h.1] at hk
      · exact ihl h.2.1
      · exact ihr h.2.2

theorem isSome_findValue_iff {V : Type} {t : Tree V} (hb : bst t = true) (k : Int) :
    (findValue t k).isSome = true ↔ k ∈ keys t := by
  induction t with
  | leaf => simp [findValue_leaf, keys]
  | node nk nv np l r ihl ihr =>
      rw [bst_node_iff] at hb
      rw [findValue_node, keys]
      have hkl : ∀ x ∈ keys l, x < nk := by
        intro x hx
        simpa using (allKeys_iff _ _).mp hb.1 x hx
      have hkr : ∀ x ∈ keys r, nk < x := by
        intro x hx
        simpa using (allKeys_iff _ _).mp hb.2.1 x hx
      split_ifs with h1 h2
      · simp [h1]
      · rw [ihl hb.2.2.1]
        simp only [List.mem_append, List.mem_cons]
        constructor
        · exact fun hx => Or.inl hx
        · rintro (hx | hx | hx)
          · exact hx
          · omega
          · have := hkr k hx
            omega
      · rw [ihr hb.2.2.2]
        simp only [List.mem_append, List.mem_cons]
        constructor
        · exact fun hx => Or.inr (Or.inr hx)
        · rintro (hx | hx | hx)
          · have := hkl k hx
            omega
          · omega
          · exact hx

theorem bst_iff_pairwise {V : Type} (t : Tree V) :
    bst t = true ↔ (keys t).Pairwise (fun a b => a < b) := by
  induction t with
  | leaf => simp [bst, keys]
  | node nk nv np l r ihl ihr =>
      rw [bst_node_iff, keys, List.pairwise_append]
      simp only [List.pairwise_cons, List.mem_cons, allKeys_iff, decide_eq_true_eq, ihl, ihr]
      constructor
      · rintro ⟨hl, hr, pl, pr⟩
        refine ⟨pl, ⟨fun b hb => hr b hb, pr⟩, ?_⟩
        rintro a ha b (rfl | hb)
        · exact hl a ha
        · exact lt_trans (hl a ha) (hr b hb)
      · rintro ⟨pl, ⟨hr, pr⟩, hcross⟩
        exact ⟨fun a ha => hcross a ha nk (Or.inl rfl), fun b hb => hr b hb, pl, pr⟩

theorem keys_eq_map_fst_entries {V : Type} (t : Tree V) :
    keys t = (entries t).map Prod.fst := by
  induction t with
  | leaf => rfl
  | node k v p l r ihl ihr => simp [keys, entries, ihl, ihr]

theorem findValue_of_mem_entries {V : Type} {t : Tree V} (hb : bst t = true) {k : Int}
    {v : V} (h : (k, v) ∈ entries t) : findValue t k = some v := by
  induction t with
  | leaf => simp [entries] at h
  | node nk nv np l r ihl ihr =>
      rw [bst_node_iff] at hb
      rw [entries] at h
      rw [findValue_node]
      simp only [List.mem_append, List.mem_cons] at h
      have hkl : ∀ x ∈ keys l, x < nk := by
        intro x hx
        simpa using (allKeys_iff _ _).mp hb.1 x hx
      have hkr : ∀ x ∈ keys r, nk < x := by
        intro x hx
        simpa using (allKeys_iff _ _).mp hb.2.1 x hx
      rcases h with h | h | h
      · have hklt : k < nk := by
          apply hkl
          rw [keys_eq_map_fst_entries]
          exact List.mem_map.mpr ⟨(k, v), h, rfl⟩
        rw [if_neg (by omega), if_pos hklt]
        exact ihl hb.2.2.1 h
      · obtain ⟨h1, h2⟩ := Prod.mk.injEq .. ▸ h
        rw [if_pos h1]
        rw [h2]
      · have hkgt : nk < k := by
          apply hkr
          rw [keys_eq_map_fst_entries]
          exact List.mem_map.mpr ⟨(k, v), h, rfl⟩
        rw [if_neg (by omega), if_neg (by omega)]
        exact ihr hb.2.2.2 h

theorem fixLeft_ne_leaf {V : Type} (k : Int) (v : V) (p : Int) (l r : Tree V) :
    fixLeft (node k v p l r) ≠ leaf := by
  cases l with
  | leaf => simp [fixLeft]
  | node lk lv lp ll lr =>
      rw [fixLeft]
      split_ifs
      · rw [rotateRight]
        simp
      · simp

theorem fixRight_ne_leaf {V : Type} (k : Int) (v : V) (p : Int) (l r : Tree V) :
    fixRight (node k v p l r) ≠ leaf := by
  cases r with
  | leaf => simp [fixRight]
  | node rk rv rp rl rr =>
      rw [fixRight]
      split_ifs
      · rw [rotateLeft]
        simp
      · simp

theorem ins_ne_leaf {V : Type} (t : Tree V) (k : Int) (v : V) (p : Int) :
    insertRecursive t k v p ≠ leaf := by
  cases t with
  | leaf => simp [insertRecursive]
  | node nk nv np l r =>
      rw [insertRecursive]
      split_ifs
      · exact fixLeft_ne_leaf _ _ _ _ _
      · exact fixRight_ne_leaf _ _ _ _ _
      · simp

theorem ins_allKeys {V : Type} {f : Int → Bool} {t : Tree V} (h : allKeys f t = true)
    {k : Int} (hk : f k = true) (v : V) (p : Int) :
    allKeys f (insertRecursive t k v p) = true := by
  induction t with
  | leaf => simp [insertRecursive, allKeys, hk]
  | node nk nv np l r ihl ihr =>
      rw [allKeys_node_iff] at h
      rw [insertRecursive]
      split_ifs with h1 h2
      · rw [allKeys_iff, keys_fixLeft, ← allKeys_iff, allKeys_node_iff]
        exact ⟨h.1, ihl h.2.1, h.2.2⟩
      · rw [allKeys_iff, keys_fixRight, ← allKeys_iff, allKeys_node_iff]
        exact ⟨h.1, h.2.1, ihr h.2.2⟩
      · rw [allKeys_node_iff]
        exact ⟨h.1, h.2.1, h.2.2⟩

theorem ins_bst {V : Type} {t : Tree V} (hb : bst t = true) (k : Int) (v : V) (p : Int) :
    bst (insertRecursive t k v p) = true := by
  induction t with
  | leaf => simp [insertRecursive, bst, allKeys]
  | node nk nv np l r ihl ihr =>
      rw [bst_node_iff] at hb
      rw [insertRecursive]
      split_ifs with h1 h2
      · apply bst_fixLeft
        rw [bst_node_iff]
        exact ⟨ins_allKeys hb.1 (by simp [h1]) v p, hb.2.1, ihl hb.2.2.1, hb.2.2.2⟩
      · apply bst_fixRight
        rw [bst_node_iff]
        exact ⟨hb.1, ins_allKeys hb.2.1 (by simp [h2]) v p, hb.2.2.1, ihr hb.2.2.2⟩
      · rw [bst_node_iff]
        exact ⟨hb.1, hb.2.1, hb.2.2.1, hb.2.2.2⟩

theorem ins_find {V : Type} {t : Tree V} (hb : bst t = true) (k : Int) (v : V) (p : Int)
    (x : Int) :
    findValue (insertRecursive t k v p) x = if x = k then some v else findValue t x := by
  induction t with
  | leaf =>
      rw [insertRecursive, findValue_node]
      split_ifs <;> rfl
  | node nk nv np l r ihl ihr =>
      rw [bst_node_iff] at hb
      rw [insertRecursive]
      by_cases h1 : k < nk
      · rw [if_pos h1]
        rw [findValue_fixLeft nk nv np _ r (ins_allKeys hb.1 (by simp [h1]) v p) x]
        rw [findValue_node, ihl hb.2.2.1, findValue_node]
        split_ifs <;> first | rfl | omega
      · rw [if_neg h1]
        by_cases h2 : nk < k
        · rw [if_pos h2]
          rw [findValue_fixRight nk nv np l _ (ins_allKeys hb.2.1 (by simp [h2]) v p) x]
          rw [findValue_node, ihr hb.2.2.2, findValue_node]
          split_ifs <;> first | rfl | omega
        · rw [if_neg h2]
          have hkeq : k = nk := by omega
          subst hkeq
          rw [findValue_node, findValue_node]
          split_ifs <;> first | rfl | omega

theorem size_fixLeft {V : Type} (t : Tree V) : size (fixLeft t) = size t := by
  rw [size_eq_length_keys, size_eq_length_keys, keys_fixLeft]

theorem size_fixRight {V : Type} (t : Tree V) : size (fixRight t) = size t := by
  rw [size_eq_length_keys, size_eq_length_keys, keys_fixRight]

theorem size_ins {V : Type} (t : Tree V) (k : Int) (v : V) (p : Int) :
    size (insertRecursive t k v p) =
      size t + (if (findValue t k).isSome then 0 else 1) := by
  induction t with
  | leaf => simp [insertRecursive, size, findValue_leaf]
  | node nk nv np l r ihl ihr =>
      rw [insertRecursive]
      by_cases h1 : k < nk
      · rw [if_pos h1, size_fixLeft]
        have hfv : findValue (node nk nv np l r) k = findValue l k := by
          rw [findValue_node, if_neg (by omega), if_pos h1]
        rw [hfv]
        cases hfv2 : (findValue l k).isSome
        all_goals simp only [size, ihl, hfv2]
        all_goals simp
        all_goals try omega
      · rw [if_neg h1]
        by_cases h2 : nk < k
        · rw [if_pos h2, size_fixRight]
          have hfv : findValue (node nk nv np l r) k = findValue r k := by
            rw [findValue_node, if_neg (by omega), if_neg (by omega)]
          rw [hfv]
          cases hfv2 : (findValue r k).isSome
          all_goals simp only [size, ihr, hfv2]
          all_goals simp
          all_goals try omega
        · rw [if_neg h2]
          have hkeq : k = nk := by omega
          have hfv : findValue (node nk nv np l r) k = some nv := by
            rw [findValue_node, if_pos hkeq]
          rw [hfv]
          simp [size]

theorem remove_leaf {V : Type} (k : Int) : removeRecursive (leaf : Tree V) k = leaf := by
  rw [removeRecursive.eq_def]

theorem remove_node_lt {V : Type} {k nk : Int} (h : k < nk) (nv : V) (np : Int)
    (l r : Tree V) :
    removeRecursive (node nk nv np l r) k = node nk nv np (removeRecursive l k) r := by
  rw [removeRecursive.eq_def]
  dsimp only
  rw [if_pos h]

theorem remove_node_gt {V : Type} {k nk : Int} (h : nk < k) (nv : V) (np : Int)
    (l r : Tree V) :
    removeRecursive (node nk nv np l r) k = node nk nv np l (removeRecursive r k) := by
  rw [removeRecursive.eq_def]
  dsimp only
  rw [if_neg (by omega), if_pos h]

theorem remove_node_self_left_leaf {V : Type} (nk : Int) (nv : V) (np : Int) (r : Tree V) :
    removeRecursive (node nk nv np leaf r) nk = r := by
  rw [removeRecursive.eq_def]
  dsimp only
  rw [if_neg (by omega), if_neg (by omega)]

theorem remove_node_self_right_leaf {V : Type} (nk : Int) (nv : V) (np lk : Int) (lv : V)
    (lp : Int) (ll lr : Tree V) :
    removeRecursive (node nk nv np (node lk lv lp ll lr) leaf) nk = node lk lv lp ll lr := by
  rw [removeRecursive.eq_def]
  dsimp only
  rw [if_neg (by omega), if_neg (by omega)]

theorem remove_node_self_two_left {V : Type} {lp rp : Int} (h : lp > rp) (nk : Int) (nv : V)
    (np lk : Int) (lv : V) (ll lr : Tree V) (rk : Int) (rv : V) (rl rr : Tree V) :
    removeRecursive (node nk nv np (node lk lv lp ll lr) (node rk rv rp rl rr)) nk =
      node lk lv lp ll (removeRecursive (node nk nv np lr (node rk rv rp rl rr)) nk) := by
  rw [removeRecursive.eq_def]
  dsimp only
  rw [if_neg (by omega), if_neg (by omega), if_pos h]

theorem remove_node_self_two_right {V : Type} {lp rp : Int} (h : ¬lp > rp) (nk : Int)
    (nv : V) (np lk : Int) (lv : V) (ll lr : Tree V) (rk : Int) (rv : V) (rl rr : Tree V) :
    removeRecursive (node nk nv np (node lk lv lp ll lr) (node rk rv rp rl rr)) nk =
      node rk rv rp (removeRecursive (node nk nv np (node lk lv lp ll lr) rl) nk) rr := by
  rw [removeRecursive.eq_def]
  dsimp only
  rw [if_neg (by omega), if_neg (by omega), if_neg h]

theorem rem_ple_aux {V : Type} (k b : Int) :
    ∀ (n : Nat) (t : Tree V), size t ≤ n → ple t b = true →
      ple (removeRecursive t k) b = true := by
  intro n
  induction n with
  | zero =>
      intro t hs hp
      cases t with
      | leaf => rw [remove_leaf]; exact hp
      | node nk nv np l r => simp [size] at hs
  | succ n ih =>
      intro t hs hp
      cases t with
      | leaf => rw [remove_leaf]; exact hp
      | node nk nv np l r =>
          rw [ple_node_iff] at hp
          simp only [size] at hs
          by_cases h1 : k < nk
          · rw [remove_node_lt h1, ple_node_iff]
            exact ⟨hp.1, ih l (by omega) hp.2.1, hp.2.2⟩
          · by_cases h2 : nk < k
            · rw [remove_node_gt h2, ple_node_iff]
              exact ⟨hp.1, hp.2.1, ih r (by omega) hp.2.2⟩
            · have hkeq : k = nk := by omega
              subst hkeq
              cases l with
              | leaf => rw [remove_node_self_left_leaf]; exact hp.2.2
              | node lk lv lp ll lr =>
                  cases r with
                  | leaf => rw [remove_node_self_right_leaf]; exact hp.2.1
                  | node rk rv rp rl rr =>
                      have hpl := hp.2.1
                      have hpr := hp.2.2
                      rw [ple_node_iff] at hpl
                      rw [ple_node_iff] at hpr
                      simp only [size] at hs
                      by_cases h3 : lp > rp
                      · rw [remove_node_self_two_left h3, ple_node_iff]
                        refine ⟨hpl.1, hpl.2.1, ih _ (by simp [size]; omega) ?_⟩
                        rw [ple_node_iff]
                        exact ⟨hp.1, hpl.2.2, hp.2.2⟩
                      · rw [remove_node_self_two_right h3, ple_node_iff]
                        refine ⟨hpr.1, ih _ (by simp [size]; omega) ?_, hpr.2.2⟩
                        rw [ple_node_iff]
                        exact ⟨hp.1, hp.2.1, hpr.2.1⟩

theorem rem_ple {V : Type} {t : Tree V} {b : Int} (hp : ple t b = true) (k : Int) :
    ple (removeRecursive t k) b = true :=
  rem_ple_aux k b (size t) t le_rfl hp

theorem remRoot_ple_aux {V : Type} (b : Int) :
    ∀ (n : Nat) (k : Int) (v : V) (p : Int) (l r : Tree V), size l + size r ≤ n →
      ple l b = true → ple r b = true →
      ple (removeRecursive (node k v p l r) k) b = true := by
  intro n
  induction n with
  | zero =>
      intro k v p l r hs hl hr
      cases l with
      | leaf => rw [remove_node_self_left_leaf]; exact hr
      | node lk lv lp ll lr => simp [size] at hs
  | succ n ih =>
      intro k v p l r hs hl hr
      cases l with
      | leaf => rw [remove_node_self_left_leaf]; exact hr
      | node lk lv lp ll lr =>
          cases r with
          | leaf => rw [remove_node_self_right_leaf]; exact hl
          | node rk rv rp rl rr =>
              rw [ple_node_iff] at hl
              rw [ple_node_iff] at hr
              simp only [size] at hs
              by_cases h3 : lp > rp
              · rw [remove_node_self_two_left h3, ple_node_iff]
                refine ⟨hl.1, hl.2.1, ih k v p lr (node rk rv rp rl rr)
                  (by simp [size]; omega) hl.2.2 ?_⟩
                rw [ple_node_iff]
                exact ⟨hr.1, hr.2.1, hr.2.2⟩
              · rw [remove_node_self_two_right h3, ple_node_iff]
                refine ⟨hr.1, ih k v p (node lk lv lp ll lr) rl
                  (by simp [size]; omega) ?_ hr.2.1, hr.2.2⟩
                rw [ple_node_iff]
                exact ⟨hl.1, hl.2.1, hl.2.2⟩

theorem remRoot_ple {V : Type} {b : Int} (k : Int) (v : V) (p : Int) {l r : Tree V}
    (hl : ple l b = true) (hr : ple r b = true) :
    ple (removeRecursive (node k v p l r) k) b = true :=
  remRoot_ple_aux b (size l + size r) k v p l r le_rfl hl hr

theorem rem_allKeys_aux {V : Type} (k : Int) (f : Int → Bool) :
    ∀ (n : Nat) (t : Tree V), size t ≤ n → allKeys f t = true →
      allKeys f (removeRecursive t k) = true := by
  intro n
  induction n with
  | zero =>
      intro t hs ha
      cases t with
      | leaf => rw [remove_leaf]; exact ha
      | node nk nv np l r => simp [size] at hs
  | succ n ih =>
      intro t hs ha
      cases t with
      | leaf => rw [remove_leaf]; exact ha
      | node nk nv np l r =>
          rw [allKeys_node_iff] at ha
          simp only [size] at hs
          by_cases h1 : k < nk
          · rw [remove_node_lt h1, allKeys_node_iff]
            exact ⟨ha.1, ih l (by omega) ha.2.1, ha.2.2⟩
          · by_cases h2 : nk < k
            · rw [remove_node_gt h2, allKeys_node_iff]
              exact ⟨ha.1, ha.2.1, ih r (by omega) ha.2.2⟩
            · have hkeq : k = nk := by omega
              subst hkeq
              cases l with
              | leaf => rw [remove_node_self_left_leaf]; exact ha.2.2
              | node lk lv lp ll lr =>
                  cases r with
                  | leaf => rw [remove_node_self_right_leaf]; exact ha.2.1
                  | node rk rv rp rl rr =>
                      have hal := ha.2.1
                      rw [allKeys_node_iff] at hal
                      have har := ha.2.2
                      rw [allKeys_node_iff] at har
                      simp only [size] at hs
                      by_cases h3 : lp > rp
                      · rw [remove_node_self_two_left h3, allKeys_node_iff]
                        refine ⟨hal.1, hal.2.1, ih _ (by simp [size]; omega) ?_⟩
                        rw [allKeys_node_iff]
                        exact ⟨ha.1, hal.2.2, ha.2.2⟩
                      · rw [remove_node_self_two_right h3, allKeys_node_iff]
                        refine ⟨har.1, ih _ (by simp [size]; omega) ?_, har.2.2⟩
                        rw [allKeys_node_iff]
                        exact ⟨ha.1, ha.2.1, har.2.1⟩

theorem rem_allKeys {V : Type} {f : Int → Bool} {t : Tree V} (ha : allKeys f t = true)
    (k : Int) : allKeys f (removeRecursive t k) = true :=
  rem_allKeys_aux k f (size t) t le_rfl ha

theorem rem_bst_aux {V : Type} (k : Int) :
    ∀ (n : Nat) (t : Tree V), size t ≤ n → bst t = true →
      bst (removeRecursive t k) = true := by
  intro n
  induction n with
  | zero =>
      intro t hs hb
      cases t with
      | leaf => rw [remove_leaf]; exact hb
      | node nk nv np l r => simp [size] at hs
  | succ n ih =>
      intro t hs hb
      cases t with
      | leaf => rw [remove_leaf]; exact hb
      | node nk nv np l r =>
          rw [bst_node_iff] at hb
          obtain ⟨hal, har, hbl, hbr⟩ := hb
          simp only [size] at hs
          by_cases h1 : k < nk
          · rw [remove_node_lt h1, bst_node_iff]
            exact ⟨rem_allKeys hal k, har, ih l (by omega) hbl, hbr⟩
          · by_cases h2 : nk < k
            · rw [remove_node_gt h2, bst_node_iff]
              exact ⟨hal, rem_allKeys har k, hbl, ih r (by omega) hbr⟩
            · have hkeq : k = nk := by omega
              subst hkeq
              cases l with
              | leaf => rw [remove_node_self_left_leaf]; exact hbr
              | node lk lv lp ll lr =>
                  cases r with
                  | leaf => rw [remove_node_self_right_leaf]; exact hbl
                  | node rk rv rp rl rr =>
                      rw [allKeys_node_iff] at hal
                      rw [allKeys_node_iff] at har
                      rw [bst_node_iff] at hbl
                      rw [bst_node_iff] at hbr
                      simp only [size] at hs
                      have hlknk : lk < k := by simpa using hal.1
                      have hnkrk : k < rk := by simpa using har.1
                      by_cases h3 : lp > rp
                      · rw [remove_node_self_two_left h3, bst_node_iff]
                        refine ⟨hbl.1, ?_, hbl.2.2.1, ih _ (by simp [size]; omega) ?_⟩
                        · apply rem_allKeys
                          rw [allKeys_node_iff]
                          refine ⟨by simp [hlknk], hbl.2.1, ?_⟩
                          apply allKeys_mono _ (by rw [allKeys_node_iff]; exact ⟨har.1, har.2.1, har.2.2⟩)
                          intro x hx
                          simp only [decide_eq_true_eq] at hx ⊢
                          omega
                        · rw [bst_node_iff]
                          exact ⟨hal.2.2, by rw [allKeys_node_iff]; exact ⟨har.1, har.2.1, har.2.2⟩,
                            hbl.2.2.2, by rw [bst_node_iff]; exact ⟨hbr.1, hbr.2.1, hbr.2.2.1, hbr.2.2.2⟩⟩
                      · rw [remove_node_self_two_right h3, bst_node_iff]
                        refine ⟨?_, hbr.2.1, ih _ (by simp [size]; omega) ?_, hbr.2.2.2⟩
                        · apply rem_allKeys
                          rw [allKeys_node_iff]
                          refine ⟨by simp [hnkrk], ?_, hbr.1⟩
                          apply allKeys_mono _ (by rw [allKeys_node_iff]; exact ⟨hal.1, hal.2.1, hal.2.2⟩)
                          intro x hx
                          simp only [decide_eq_true_eq] at hx ⊢
                          omega
                        · rw [bst_node_iff]
                          exact ⟨by rw [allKeys_node_iff]; exact ⟨hal.1, hal.2.1, hal.2.2⟩, har.2.1,
                            by rw [bst_node_iff]; exact ⟨hbl.1, hbl.2.1, hbl.2.2.1, hbl.2.2.2⟩, hbr.2.2.1⟩

theorem rem_bst {V : Type} {t : Tree V} (hb : bst t = true) (k : Int) :
    bst (removeRecursive t k) = true :=
  rem_bst_aux k (size t) t le_rfl hb

theorem remRoot_heap_aux {V : Type} :
    ∀ (n : Nat) (k : Int) (v : V) (p : Int) (l r : Tree V), size l + size r ≤ n →
      heap l = true → heap r = true →
      heap (removeRecursive (node k v p l r) k) = true := by
  intro n
  induction n with
  | zero =>
      intro k v p l r hs hl hr
      cases l with
      | leaf => rw [remove_node_self_left_leaf]; exact hr
      | node lk lv lp ll lr => simp [size] at hs
  | succ n ih =>
      intro k v p l r hs hl hr
      cases l with
      | leaf => rw [remove_node_self_left_leaf]; exact hr
      | node lk lv lp ll lr =>
          cases r with
          | leaf => rw [remove_node_self_right_leaf]; exact hl
          | node rk rv rp rl rr =>
              rw [heap_node_iff] at hl
              rw [heap_node_iff] at hr
              simp only [size] at hs
              by_cases h3 : lp > rp
              · rw [remove_node_self_two_left h3, heap_node_iff]
                refine ⟨hl.1, ?_, hl.2.2.1, ih _ _ _ lr (node rk rv rp rl rr)
                  (by simp [size]; omega) hl.2.2.2
                  (by rw [heap_node_iff]; exact ⟨hr.1, hr.2.1, hr.2.2.1, hr.2.2.2⟩)⟩
                apply rootPrioLe_of_ple
                apply remRoot_ple
                · exact ple_of_heap hl.2.2.2 hl.2.1
                · apply ple_of_heap
                  · rw [heap_node_iff]
                    exact ⟨hr.1, hr.2.1, hr.2.2.1, hr.2.2.2⟩
                  · simp only [rootPrioLe, decide_eq_true_eq]
                    omega
              · rw [remove_node_self_two_right h3, heap_node_iff]
                refine ⟨?_, hr.2.1, ih _ _ _ (node lk lv lp ll lr) rl
                  (by simp [size]; omega)
                  (by rw [heap_node_iff]; exact ⟨hl.1, hl.2.1, hl.2.2.1, hl.2.2.2⟩)
                  hr.2.2.1, hr.2.2.2⟩
                apply rootPrioLe_of_ple
                apply remRoot_ple
                · apply ple_of_heap
                  · rw [heap_node_iff]
                    exact ⟨hl.1, hl.2.1, hl.2.2.1, hl.2.2.2⟩
                  · simp only [rootPrioLe, decide_eq_true_eq]
                    omega
                · exact ple_of_heap hr.2.2.1 hr.1

theorem rem_heap_aux {V : Type} (k : Int) :
    ∀ (n : Nat) (t : Tree V), size t ≤ n → heap t = true →
      heap (removeRecursive t k) = true := by
  intro n
  induction n with
  | zero =>
      intro t hs hh
      cases t with
      | leaf => rw [remove_leaf]; exact hh
      | node nk nv np l r => simp [size] at hs
  | succ n ih =>
      intro t hs hh
      cases t with
      | leaf => rw [remove_leaf]; exact hh
      | node nk nv np l r =>
          rw [heap_node_iff] at hh
          simp only [size] at hs
          by_cases h1 : k < nk
          · rw [remove_node_lt h1, heap_node_iff]
            refine ⟨?_, hh.2.1, ih l (by omega) hh.2.2.1, hh.2.2.2⟩
            exact rootPrioLe_of_ple (rem_ple (ple_of_heap hh.2.2.1 hh.1) k)
          · by_cases h2 : nk < k
            · rw [remove_node_gt h2, heap_node_iff]
              refine ⟨hh.1, ?_, hh.2.2.1, ih r (by omega) hh.2.2.2⟩
              exact rootPrioLe_of_ple (rem_ple (ple_of_heap hh.2.2.2 hh.2.1) k)
            · have hkeq : k = nk := by omega
              subst hkeq
              exact remRoot_heap_aux (size l + size r) k nv np l r le_rfl hh.2.2.1 hh.2.2.2

theorem rem_heap {V : Type} {t : Tree V} (hh : heap t = true) (k : Int) :
    heap (removeRecursive t k) = true :=
  rem_heap_aux k (size t) t le_rfl hh

theorem rem_find_aux {V : Type} (k : Int) :
    ∀ (n : Nat) (t : Tree V), size t ≤ n → bst t = true → ∀ x,
      findValue (removeRecursive t k) x = if x = k then none else findValue t x := by
  intro n
  induction n with
  | zero =>
      intro t hs hb x
      cases t with
      | leaf => rw [remove_leaf]; simp [findValue_leaf]
      | node nk nv np l r => simp [size] at hs
  | succ n ih =>
      intro t hs hb x
      cases t with
      | leaf => rw [remove_leaf]; simp [findValue_leaf]
      | node nk nv np l r =>
          rw [bst_node_iff] at hb
          obtain ⟨hal, har, hbl, hbr⟩ := hb
          simp only [size] at hs
          by_cases h1 : k < nk
          · rw [remove_node_lt h1]
            rw [findValue_node, ih l (by omega) hbl x, findValue_node]
            split_ifs <;> first | rfl | omega
          · by_cases h2 : nk < k
            · rw [remove_node_gt h2]
              rw [findValue_node, ih r (by omega) hbr x, findValue_node]
              split_ifs <;> first | rfl | omega
            · have hkeq : k = nk := by omega
              subst hkeq
              cases l with
              | leaf =>
                  rw [remove_node_self_left_leaf]
                  have hnone : ∀ y, ¬k < y → findValue r y = none := fun y hy =>
                    findValue_none_of_allKeys har (decide_eq_false hy)
                  simp only [findValue_node, findValue_leaf]
                  split_ifs <;>
                    first | rfl | omega | (exact hnone x (by omega)) |
                      (exact (hnone x (by omega)).symm)
              | node lk lv lp ll lr =>
                  cases r with
                  | leaf =>
                      rw [remove_node_self_right_leaf]
                      rw [allKeys_node_iff] at hal
                      have hlk : lk < k := by simpa using hal.1
                      have hnonelr : ∀ y, ¬y < k → findValue lr y = none := fun y hy =>
                        findValue_none_of_allKeys hal.2.2 (decide_eq_false hy)
                      simp only [findValue_node, findValue_leaf]
                      split_ifs <;>
                        first | rfl | omega |
                          (exact hnonelr x (by omega)) | (exact (hnonelr x (by omega)).symm)
                  | node rk rv rp rl rr =>
                      have halx := hal
                      have harx := har
                      rw [allKeys_node_iff] at halx
                      rw [allKeys_node_iff] at harx
                      rw [bst_node_iff] at hbl
                      rw [bst_node_iff] at hbr
                      simp only [size] at hs
                      have hlknk : lk < k := by simpa using halx.1
                      have hnkrk : k < rk := by simpa using harx.1
                      by_cases h3 : lp > rp
                      · rw [remove_node_self_two_left h3]
                        have hbin : bst (node k nv np lr (node rk rv rp rl rr)) = true := by
                          rw [bst_node_iff]
                          exact ⟨halx.2.2, har, hbl.2.2.2,
                            by rw [bst_node_iff]; exact ⟨hbr.1, hbr.2.1, hbr.2.2.1, hbr.2.2.2⟩⟩
                        have hX := ih (node k nv np lr (node rk rv rp rl rr))
                          (by simp [size]; omega) hbin
                        simp only [findValue_node, hX]
                        split_ifs <;> first | rfl | omega
                      · rw [remove_node_self_two_right h3]
                        have hbin : bst (node k nv np (node lk lv lp ll lr) rl) = true := by
                          rw [bst_node_iff]
                          exact ⟨hal, harx.2.1,
                            by rw [bst_node_iff]; exact ⟨hbl.1, hbl.2.1, hbl.2.2.1, hbl.2.2.2⟩,
                            hbr.2.2.1⟩
                        have hX := ih (node k nv np (node lk lv lp ll lr) rl)
                          (by simp [size]; omega) hbin
                        simp only [findValue_node, hX]
                        split_ifs <;> first | rfl | omega

theorem rem_find {V : Type} {t : Tree V} (hb : bst t = true) (k x : Int) :
    findValue (removeRecursive t k) x = if x = k then none else findValue t x :=
  rem_find_aux k (size t) t le_rfl hb x

theorem size_rem_aux {V : Type} (k : Int) :
    ∀ (n : Nat) (t : Tree V), size t ≤ n →
      size t = size (removeRecursive t k) +
        (if (findValue t k).isSome then 1 else 0) := by
  intro n
  induction n with
  | zero =>
      intro t hs
      cases t with
      | leaf => rw [remove_leaf]; simp [findValue_leaf, size]
      | node nk nv np l r => simp [size] at hs
  | succ n ih =>
      intro t hs
      cases t with
      | leaf => rw [remove_leaf]; simp [findValue_leaf, size]
      | node nk nv np l r =>
          simp only [size] at hs
          by_cases h1 : k < nk
          · rw [remove_node_lt h1]
            have hfv : findValue (node nk nv np l r) k = findValue l k := by
              rw [findValue_node, if_neg (by omega), if_pos h1]
            rw [hfv]
            have := ih l (by omega)
            simp only [size]
            omega
          · by_cases h2 : nk < k
            · rw [remove_node_gt h2]
              have hfv : findValue (node nk nv np l r) k = findValue r k := by
                rw [findValue_node, if_neg (by omega), if_neg (by omega)]
              rw [hfv]
              have := ih r (by omega)
              simp only [size]
              omega
            · have hkeq : k = nk := by omega
              subst hkeq
              have hfv : findValue (node k nv np l r) k = some nv := by
                rw [findValue_node, if_pos rfl]
              rw [hfv]
              cases l with
              | leaf => rw [remove_node_self_left_leaf]; simp [size]; omega
              | node lk lv lp ll lr =>
                  cases r with
                  | leaf => rw [remove_node_self_right_leaf]; simp [size]; omega
                  | node rk rv rp rl rr =>
                      simp only [size] at hs
                      by_cases h3 : lp > rp
                      · rw [remove_node_self_two_left h3]
                        have hfv2 : findValue (node k nv np lr (node rk rv rp rl rr)) k
                            = some nv := by
                          rw [findValue_node, if_pos rfl]
                        have := ih (node k nv np lr (node rk rv rp rl rr))
                          (by simp [size]; omega)
                        rw [hfv2] at this
                        simp only [size] at this ⊢
                        simp only [Option.isSome_some, if_pos] at this ⊢
                        omega
                      · rw [remove_node_self_two_right h3]
                        have hfv2 : findValue (node k nv np (node lk lv lp ll lr) rl) k
                            = some nv := by
                          rw [findValue_node, if_pos rfl]
                        have := ih (node k nv np (node lk lv lp ll lr) rl)
                          (by simp [size]; omega)
                        rw [hfv2] at this
                        simp only [size] at this ⊢
                        simp only [Option.isSome_some, if_pos] at this ⊢
                        omega

theorem size_rem {V : Type} (t : Tree V) (k : Int) :
    size t = size (removeRecursive t k) + (if (findValue t k).isSome then 1 else 0) :=
  size_rem_aux k (size t) t le_rfl

theorem rem_absent {V : Type} {t : Tree V} {k : Int} (h : findValue t k = none) :
    removeRecursive t k = t := by
  induction t with
  | leaf => exact remove_leaf k
  | node nk nv np l r ihl ihr =>
      rw [findValue_node] at h
      by_cases h1 : k < nk
      · rw [if_neg (by omega), if_pos h1] at h
        rw [remove_node_lt h1, ihl h]
      · by_cases h2 : nk < k
        · rw [if_neg (by omega), if_neg (by omega)] at h
          rw [remove_node_gt h2, ihr h]
        · rw [if_pos (by omega)] at h
          simp at h

theorem ins_heap_aux {V : Type} (k : Int) (v : V) (p : Int) :
    ∀ t : Tree V, heap t = true →
      heap (insertRecursive t k v p) = true ∧
      ∀ b, ple t b = true →
        ple (insertRecursive t k v p) (max b p) = true ∧
        ∀ k2 v2 p2 l2 r2, insertRecursive t k v p = node k2 v2 p2 l2 r2 → b < p2 →
          p2 = p ∧ ple l2 b = true ∧ ple r2 b = true := by
  intro t
  induction t with
  | leaf =>
      intro _
      rw [insertRecursive]
      refine ⟨by rw [heap_node_iff]; exact ⟨rfl, rfl, rfl, rfl⟩, ?_⟩
      intro b _
      constructor
      · rw [ple_node_iff]
        exact ⟨le_max_right b p, rfl, rfl⟩
      · intro k2 v2 p2 l2 r2 heq _
        cases heq
        exact ⟨rfl, rfl, rfl⟩
  | node nk nv np l r ihl ihr =>
      intro hh
      rw [heap_node_iff] at hh
      obtain ⟨hLl, hLr, hl, hr⟩ := hh
      rw [insertRecursive]
      by_cases h1 : k < nk
      · rw [if_pos h1]
        obtain ⟨hheapl', hclause⟩ := ihl hl
        have hplel : ple l np = true := ple_of_heap hl hLl
        obtain ⟨hplel', hnodecl⟩ := hclause np hplel
        cases hl' : insertRecursive l k v p with
        | leaf => exact absurd hl' (ins_ne_leaf l k v p)
        | node lk' lv' lp' ll' lr' =>
            rw [hl'] at hheapl' hplel'
            rw [heap_node_iff] at hheapl'
            rw [ple_node_iff] at hplel'
            rw [fixLeft]
            by_cases h4 : lp' > np
            · rw [if_pos h4, rotateRight]
              obtain ⟨hp2, hpll', hplr'⟩ := hnodecl lk' lv' lp' ll' lr' hl' h4
              constructor
              · rw [heap_node_iff]
                refine ⟨hheapl'.1, by simp [rootPrioLe]; omega, hheapl'.2.2.1, ?_⟩
                rw [heap_node_iff]
                exact ⟨rootPrioLe_of_ple hplr', hLr, hheapl'.2.2.2, hr⟩
              · intro b hb
                rw [ple_node_iff] at hb
                obtain ⟨hnpb, hlb, hrb⟩ := hb
                constructor
                · rw [ple_node_iff]
                  refine ⟨hp2 ▸ le_max_right b p,
                    ple_mono hpll' (le_trans hnpb (le_max_left b p)), ?_⟩
                  rw [ple_node_iff]
                  exact ⟨le_trans hnpb (le_max_left b p),
                    ple_mono hplr' (le_trans hnpb (le_max_left b p)),
                    ple_mono hrb (le_max_left b p)⟩
                · intro k2 v2 p2 l2 r2 heq _
                  cases heq
                  refine ⟨hp2, ple_mono hpll' hnpb, ?_⟩
                  rw [ple_node_iff]
                  exact ⟨hnpb, ple_mono hplr' hnpb, hrb⟩
            · rw [if_neg h4]
              constructor
              · rw [heap_node_iff]
                refine ⟨by simp [rootPrioLe]; omega, hLr, ?_, hr⟩
                rw [heap_node_iff]
                exact ⟨hheapl'.1, hheapl'.2.1, hheapl'.2.2.1, hheapl'.2.2.2⟩
              · intro b hb
                rw [ple_node_iff] at hb
                obtain ⟨hnpb, hlb, hrb⟩ := hb
                have hplel'b := (hclause b hlb).1
                rw [hl'] at hplel'b
                constructor
                · rw [ple_node_iff]
                  exact ⟨le_trans hnpb (le_max_left b p), hplel'b,
                    ple_mono hrb (le_max_left b p)⟩
                · intro k2 v2 p2 l2 r2 heq hblt
                  cases heq
                  exact absurd hblt (by omega)
      · by_cases h2 : nk < k
        · rw [if_neg h1, if_pos h2]
          obtain ⟨hheapr', hclause⟩ := ihr hr
          have hpler : ple r np = true := ple_of_heap hr hLr
          obtain ⟨hpler', hnodecr⟩ := hclause np hpler
          cases hr' : insertRecursive r k v p with
          | leaf => exact absurd hr' (ins_ne_leaf r k v p)
          | node rk' rv' rp' rl' rr' =>
              rw [hr'] at hheapr' hpler'
              rw [heap_node_iff] at hheapr'
              rw [ple_node_iff] at hpler'
              rw [fixRight]
              by_cases h4 : rp' > np
              · rw [if_pos h4, rotateLeft]
                obtain ⟨hp2, hprl', hprr'⟩ := hnodecr rk' rv' rp' rl' rr' hr' h4
                constructor
                · rw [heap_node_iff]
                  refine ⟨by simp [rootPrioLe]; omega, hheapr'.2.1, ?_, hheapr'.2.2.2⟩
                  rw [heap_node_iff]
                  exact ⟨hLl, rootPrioLe_of_ple hprl', hl, hheapr'.2.2.1⟩
                · intro b hb
                  rw [ple_node_iff] at hb
                  obtain ⟨hnpb, hlb, hrb⟩ := hb
                  constructor
                  · rw [ple_node_iff]
                    refine ⟨hp2 ▸ le_max_right b p, ?_,
                      ple_mono hprr' (le_trans hnpb (le_max_left b p))⟩
                    rw [ple_node_iff]
                    exact ⟨le_trans hnpb (le_max_left b p),
                      ple_mono hlb (le_max_left b p),
                      ple_mono hprl' (le_trans hnpb (le_max_left b p))⟩
                  · intro k2 v2 p2 l2 r2 heq _
                    cases heq
                    refine ⟨hp2, ?_, ple_mono hprr' hnpb⟩
                    rw [ple_node_iff]
                    exact ⟨hnpb, hlb, ple_mono hprl' hnpb⟩
              · rw [if_neg h4]
                constructor
                · rw [heap_node_iff]
                  refine ⟨hLl, by simp [rootPrioLe]; omega, hl, ?_⟩
                  rw [heap_node_iff]
                  exact ⟨hheapr'.1, hheapr'.2.1, hheapr'.2.2.1, hheapr'.2.2.2⟩
                · intro b hb
                  rw [ple_node_iff] at hb
                  obtain ⟨hnpb, hlb, hrb⟩ := hb
                  have hpler'b := (hclause b hrb).1
                  rw [hr'] at hpler'b
                  constructor
                  · rw [ple_node_iff]
                    exact ⟨le_trans hnpb (le_max_left b p),
                      ple_mono hlb (le_max_left b p), hpler'b⟩
                  · intro k2 v2 p2 l2 r2 heq hblt
                    cases heq
                    exact absurd hblt (by omega)
        · rw [if_neg h1, if_neg h2]
          constructor
          · rw [heap_node_iff]
            exact ⟨hLl, hLr, hl, hr⟩
          · intro b hb
            rw [ple_node_iff] at hb
            constructor
            · rw [ple_node_iff]
              exact ⟨le_trans hb.1 (le_max_left b p),
                ple_mono hb.2.1 (le_max_left b p), ple_mono hb.2.2 (le_max_left b p)⟩
            · intro k2 v2 p2 l2 r2 heq hblt
              cases heq
              exact absurd hblt (by omega)

theorem ins_heap {V : Type} {t : Tree V} (hh : heap t = true) (k : Int) (v : V) (p : Int) :
    heap (insertRecursive t k v p) = true :=
  (ins_heap_aux k v p t hh).1

theorem skeleton_ne_leaf {V : Type} {t : Tree V} (h : t ≠ leaf) : skeleton t ≠ leaf := by
  cases t with
  | leaf => exact absurd rfl h
  | node k v p l r => simp [skeleton]

theorem size_skeleton {V : Type} (t : Tree V) : size (skeleton t) = size t := by
  induction t with
  | leaf => rfl
  | node k v p l r ihl ihr => simp [skeleton, size, ihl, ihr]

theorem ins_skeleton {V : Type} {t : Tree V} (hh : heap t = true) (k : Int) (v : V)
    (p : Int) (hin : (findValue t k).isSome = true) :
    skeleton (insertRecursive t k v p) = skeleton t := by
  induction t with
  | leaf => simp [findValue_leaf] at hin
  | node nk nv np l r ihl ihr =>
      rw [heap_node_iff] at hh
      rw [findValue_node] at hin
      rw [insertRecursive]
      by_cases h1 : k < nk
      · rw [if_pos h1]
        rw [if_neg (by omega), if_pos h1] at hin
        have hskel := ihl hh.2.2.1 hin
        have hlne : l ≠ leaf := by
          intro hleaf
          rw [hleaf] at hin
          simp [findValue_leaf] at hin
        cases l with
        | leaf => exact absurd rfl hlne
        | node lk lv lp ll lr =>
            cases hl' : insertRecursive (node lk lv lp ll lr) k v p with
            | leaf => exact absurd hl' (ins_ne_leaf _ k v p)
            | node lk2 lv2 lp2 ll2 lr2 =>
                rw [hl'] at hskel
                rw [skeleton, skeleton] at hskel
                injection hskel with e1 e2 e3 e4 e5
                have hlpnp : lp ≤ np := by
                  have := hh.1
                  simpa [rootPrioLe] using this
                rw [fixLeft, if_neg (by omega)]
                rw [skeleton, skeleton, skeleton, skeleton]
                rw [e1, e3, e4, e5]
      · by_cases h2 : nk < k
        · rw [if_neg h1, if_pos h2]
          rw [if_neg (by omega), if_neg (by omega)] at hin
          have hskel := ihr hh.2.2.2 hin
          have hrne : r ≠ leaf := by
            intro hleaf
            rw [hleaf] at hin
            simp [findValue_leaf] at hin
          cases r with
          | leaf => exact absurd rfl hrne
          | node rk rv rp rl rr =>
              cases hr' : insertRecursive (node rk rv rp rl rr) k v p with
              | leaf => exact absurd hr' (ins_ne_leaf _ k v p)
              | node rk2 rv2 rp2 rl2 rr2 =>
                  rw [hr'] at hskel
                  rw [skeleton, skeleton] at hskel
                  injection hskel with e1 e2 e3 e4 e5
                  have hrpnp : rp ≤ np := by
                    have := hh.2.1
                    simpa [rootPrioLe] using this
                  rw [fixRight, if_neg (by omega)]
                  rw [skeleton, skeleton, skeleton, skeleton]
                  rw [e1, e3, e4, e5]
        · rw [if_neg h1, if_neg h2]
          rw [skeleton, skeleton]

theorem ins_same {V : Type} {t : Tree V} (hh : heap t = true) {k : Int} {v : V} (p : Int)
    (hv : findValue t k = some v) : insertRecursive t k v p = t := by
  induction t with
  | leaf => simp [findValue_leaf] at hv
  | node nk nv np l r ihl ihr =>
      rw [heap_node_iff] at hh
      rw [findValue_node] at hv
      rw [insertRecursive]
      by_cases h1 : k < nk
      · rw [if_pos h1]
        rw [if_neg (by omega), if_pos h1] at hv
        rw [ihl hh.2.2.1 hv]
        cases l with
        | leaf => simp [findValue_leaf] at hv
        | node lk lv lp ll lr =>
            have hlpnp : lp ≤ np := by
              have := hh.1
              simpa [rootPrioLe] using this
            rw [fixLeft, if_neg (by omega)]
      · by_cases h2 : nk < k
        · rw [if_neg h1, if_pos h2]
          rw [if_neg (by omega), if_neg (by omega)] at hv
          rw [ihr hh.2.2.2 hv]
          cases r with
          | leaf => simp [findValue_leaf] at hv
          | node rk rv rp rl rr =>
              have hrpnp : rp ≤ np := by
                have := hh.2.1
                simpa [rootPrioLe] using this
              rw [fixRight, if_neg (by omega)]
        · rw [if_neg h1, if_neg h2]
          rw [if_pos (by omega)] at hv
          have : nv = v := by
            injection hv
          rw [this]

theorem insertRecursiveS_eq (t : Tree Unit) (k p : Int) :
    insertRecursiveS t k p =
      (insertRecursive t k () p, if memberRecursive t k then 0 else 1) := by
  induction t with
  | leaf => simp [insertRecursiveS, insertRecursive, memberRecursive]
  | node nk nv np l r ihl ihr =>
      by_cases h1 : k < nk
      · have hkne : ¬(k = nk) := by omega
        simp [insertRecursiveS, insertRecursive, memberRecursive, ihl, h1, hkne]
      · by_cases h2 : nk < k
        · have hkne : ¬(k = nk) := by omega
          simp [insertRecursiveS, insertRecursive, memberRecursive, ihr, h1, h2, hkne]
        · have hkeq : k = nk := by omega
          simp [insertRecursiveS, insertRecursive, memberRecursive, h1, h2, hkeq]

theorem removeS_leaf (k : Int) : removeRecursiveS leaf k = (leaf, 0) := by
  rw [removeRecursiveS.eq_def]

theorem removeS_lt {k nk : Int} (h : k < nk) (nv : Unit) (np : Int) (l r : Tree Unit) :
    removeRecursiveS (node nk nv np l r) k =
      (node nk nv np (removeRecursiveS l k).1 r, (removeRecursiveS l k).2) := by
  rw [removeRecursiveS.eq_def]
  dsimp only
  rw [if_pos h]

theorem removeS_gt {k nk : Int} (h : nk < k) (nv : Unit) (np : Int) (l r : Tree Unit) :
    removeRecursiveS (node nk nv np l r) k =
      (node nk nv np l (removeRecursiveS r k).1, (removeRecursiveS r k).2) := by
  rw [removeRecursiveS.eq_def]
  dsimp only
  rw [if_neg (by omega), if_pos h]

theorem removeS_self_left_leaf (nk : Int) (nv : Unit) (np : Int) (r : Tree Unit) :
    removeRecursiveS (node nk nv np leaf r) nk = (r, 1) := by
  rw [removeRecursiveS.eq_def]
  dsimp only
  rw [if_neg (by omega), if_neg (by omega)]

theorem removeS_self_right_leaf (nk : Int) (nv : Unit) (np lk : Int) (lv : Unit)
    (lp : Int) (ll lr : Tree Unit) :
    removeRecursiveS (node nk nv np (node lk lv lp ll lr) leaf) nk =
      (node lk lv lp ll lr, 1) := by
  rw [removeRecursiveS.eq_def]
  dsimp only
  rw [if_neg (by omega), if_neg (by omega)]

theorem removeS_self_two_left {lp rp : Int} (h : lp > rp) (nk : Int) (nv : Unit)
    (np lk : Int) (lv : Unit) (ll lr : Tree Unit) (rk : Int) (rv : Unit)
    (rl rr : Tree Unit) :
    removeRecursiveS (node nk nv np (node lk lv lp ll lr) (node rk rv rp rl rr)) nk =
      (node lk lv lp ll (removeRecursiveS (node nk nv np lr (node rk rv rp rl rr)) nk).1,
       (removeRecursiveS (node nk nv np lr (node rk rv rp rl rr)) nk).2) := by
  rw [removeRecursiveS.eq_def]
  dsimp only
  rw [if_neg (by omega), if_neg (by omega), if_pos h]

theorem removeS_self_two_right {lp rp : Int} (h : ¬lp > rp) (nk : Int) (nv : Unit)
    (np lk : Int) (lv : Unit) (ll lr : Tree Unit) (rk : Int) (rv : Unit)
    (rl rr : Tree Unit) :
    removeRecursiveS (node nk nv np (node lk lv lp ll lr) (node rk rv rp rl rr)) nk =
      (node rk rv rp
        (removeRecursiveS (node nk nv np (node lk lv lp ll lr) rl) nk).1 rr,
       (removeRecursiveS (node nk nv np (node lk lv lp ll lr) rl) nk).2) := by
  rw [removeRecursiveS.eq_def]
  dsimp only
  rw [if_neg (by omega), if_neg (by omega), if_neg h]

theorem removeRecursiveS_eq_aux :
    ∀ (n : Nat) (t : Tree Unit) (k : Int), size t ≤ n →
      removeRecursiveS t k =
        (removeRecursive t k, if memberRecursive t k then 1 else 0) := by
  intro n
  induction n with
  | zero =>
      intro t k hs
      cases t with
      | leaf => simp [removeS_leaf, remove_leaf, memberRecursive]
      | node nk nv np l r => simp [size] at hs
  | succ n ih =>
      intro t k hs
      cases t with
      | leaf => simp [removeS_leaf, remove_leaf, memberRecursive]
      | node nk nv np l r =>
          simp only [size] at hs
          by_cases h1 : k < nk
          · rw [removeS_lt h1, remove_node_lt h1, ih l k (by omega)]
            have hm : memberRecursive (node nk nv np l r) k = memberRecursive l k := by
              rw [memberRecursive, if_neg (by omega), if_pos h1]
            rw [hm]
          · by_cases h2 : nk < k
            · rw [removeS_gt h2, remove_node_gt h2, ih r k (by omega)]
              have hm : memberRecursive (node nk nv np l r) k = memberRecursive r k := by
                rw [memberRecursive, if_neg (by omega), if_neg (by omega)]
              rw [hm]
            · have hkeq : k = nk := by omega
              subst hkeq
              have hm : memberRecursive (node k nv np l r) k = true := by
                rw [memberRecursive, if_pos rfl]
              rw [hm]
              cases l with
              | leaf => rw [removeS_self_left_leaf, remove_node_self_left_leaf]; rfl
              | node lk lv lp ll lr =>
                  cases r with
                  | leaf =>
                      rw [removeS_self_right_leaf, remove_node_self_right_leaf]
                      rfl
                  | node rk rv rp rl rr =>
                      simp only [size] at hs
                      by_cases h3 : lp > rp
                      · rw [removeS_self_two_left h3, remove_node_self_two_left h3,
                          ih _ k (by simp [size]; omega)]
                        have hm2 : memberRecursive
                            (node k nv np lr (node rk rv rp rl rr)) k = true := by
                          rw [memberRecursive, if_pos rfl]
                        rw [hm2]
                      · rw [removeS_self_two_right h3, remove_node_self_two_right h3,
                          ih _ k (by simp [size]; omega)]
                        have hm2 : memberRecursive
                            (node k nv np (node lk lv lp ll lr) rl) k = true := by
                          rw [memberRecursive, if_pos rfl]
                        rw [hm2]

theorem removeRecursiveS_eq (t : Tree Unit) (k : Int) :
    removeRecursiveS t k =
      (removeRecursive t k, if memberRecursive t k then 1 else 0) :=
  removeRecursiveS_eq_aux (size t) t k le_rfl

theorem setInv_empty : SetInv TreapSet.empty := ⟨⟨rfl, rfl⟩, rfl⟩

theorem setInv_insert {s : TreapSet} (h : SetInv s) (k p : Int) : SetInv (s.insert k p) := by
  obtain ⟨⟨hb, hh⟩, hc⟩ := h
  by_cases hm : s.member k = true
  · rw [TreapSet.insert, if_pos hm]
    exact ⟨⟨hb, hh⟩, hc⟩
  · have hmem : memberRecursive s.root k = false := by
      simpa [TreapSet.member] using hm
    have hpair : insertRecursiveS s.root k p = (insertRecursive s.root k () p, 1) := by
      rw [insertRecursiveS_eq, hmem]
      rfl
    rw [TreapSet.insert, if_neg hm, hpair]
    refine ⟨⟨ins_bst hb k () p, ins_heap hh k () p⟩, ?_⟩
    have hsz := size_ins s.root k () p
    rw [← memberRecursive_eq, hmem] at hsz
    simp only [Bool.false_eq_true, if_false] at hsz
    show s.nodeCount + 1 = (size (insertRecursive s.root k () p) : Int)
    rw [hsz, hc]
    push_cast
    ring

theorem setInv_remove {s : TreapSet} (h : SetInv s) (k : Int) : SetInv (s.remove k) := by
  obtain ⟨⟨hb, hh⟩, hc⟩ := h
  by_cases hm : s.member k = true
  · have hmem : memberRecursive s.root k = true := hm
    have hpair : removeRecursiveS s.root k = (removeRecursive s.root k, 1) := by
      rw [removeRecursiveS_eq, hmem]
      rfl
    rw [TreapSet.remove, if_pos hm, hpair]
    refine ⟨⟨rem_bst hb k, rem_heap hh k⟩, ?_⟩
    have hsz := size_rem s.root k
    rw [← memberRecursive_eq, hmem] at hsz
    simp only [if_true] at hsz
    show s.nodeCount - 1 = (size (removeRecursive s.root k) : Int)
    rw [hc]
    omega
  · rw [TreapSet.remove, if_neg hm]
    exact ⟨⟨hb, hh⟩, hc⟩

theorem setInv_clear (s : TreapSet) : SetInv s.clear := ⟨⟨rfl, rfl⟩, rfl⟩

theorem reachS_inv {s : TreapSet} (h : ReachS s) : SetInv s := by
  induction h with
  | empty => exact setInv_empty
  | insert s k p _ ih => exact setInv_insert ih k p
  | remove s k _ ih => exact setInv_remove ih k
  | clear s _ _ => exact setInv_clear s

theorem mapInv_empty : MapInv TreapMap.empty := ⟨rfl, rfl⟩

theorem mapInv_insert {m : TreapMap} (h : MapInv m) (k : Int) (v : Value) (p : Int) :
    MapInv (m.insert k v p) := ⟨ins_bst h.1 k v p, ins_heap h.2 k v p⟩

theorem mapInv_remove {m : TreapMap} (h : MapInv m) (k : Int) : MapInv (m.remove k) :=
  ⟨rem_bst h.1 k, rem_heap h.2 k⟩

theorem mapInv_clear (m : TreapMap) : MapInv m.clear := ⟨rfl, rfl⟩

theorem reachM_inv {m : TreapMap} (h : ReachM m) : MapInv m := by
  induction h with
  | empty => exact mapInv_empty
  | insert m k v p _ ih => exact mapInv_insert ih k v p
  | remove m k _ ih => exact mapInv_remove ih k
  | clear m _ _ => exact mapInv_clear m

theorem RS_empty : RS TreapSet.empty ∅ := by
  refine ⟨setInv_empty, ?_⟩
  intro x
  simp [TreapSet.member, TreapSet.empty, memberRecursive]

theorem RS_insert {s : TreapSet} {A : Finset Int} (h : RS s A) (k p : Int) :
    RS (s.insert k p) (insert k A) := by
  obtain ⟨hinv, hmem⟩ := h
  refine ⟨setInv_insert hinv k p, ?_⟩
  intro x
  rw [Finset.mem_insert]
  by_cases hm : s.member k = true
  · rw [TreapSet.insert, if_pos hm]
    constructor
    · intro hx
      exact Or.inr ((hmem x).mp hx)
    · rintro (rfl | hx)
      · exact hm
      · exact (hmem x).mpr hx
  · have hmemf : memberRecursive s.root k = false := by
      simpa [TreapSet.member] using hm
    have hpair : insertRecursiveS s.root k p = (insertRecursive s.root k () p, 1) := by
      rw [insertRecursiveS_eq, hmemf]
      rfl
    rw [TreapSet.insert, if_neg hm]
    show memberRecursive (insertRecursiveS s.root k p).1 x = true ↔ x = k ∨ x ∈ A
    rw [hpair]
    show memberRecursive (insertRecursive s.root k () p) x = true ↔ x = k ∨ x ∈ A
    rw [memberRecursive_eq, ins_find hinv.1.1 k () p x]
    by_cases hx : x = k
    · simp [hx]
    · rw [if_neg hx, ← memberRecursive_eq]
      constructor
      · intro hmx
        exact Or.inr ((hmem x).mp hmx)
      · rintro (h1 | h1)
        · exact absurd h1 hx
        · exact (hmem x).mpr h1

theorem RS_remove {s : TreapSet} {A : Finset Int} (h : RS s A) (k : Int) :
    RS (s.remove k) (A.erase k) := by
  obtain ⟨hinv, hmem⟩ := h
  refine ⟨setInv_remove hinv k, ?_⟩
  intro x
  rw [Finset.mem_erase]
  by_cases hm : s.member k = true
  · have hpair : removeRecursiveS s.root k = (removeRecursive s.root k, 1) := by
      rw [removeRecursiveS_eq, show memberRecursive s.root k = true from hm]
      rfl
    rw [TreapSet.remove, if_pos hm]
    show memberRecursive (removeRecursiveS s.root k).1 x = true ↔ x ≠ k ∧ x ∈ A
    rw [hpair]
    show memberRecursive (removeRecursive s.root k) x = true ↔ x ≠ k ∧ x ∈ A
    rw [memberRecursive_eq, rem_find hinv.1.1 k x]
    by_cases hx : x = k
    · simp [hx]
    · rw [if_neg hx, ← memberRecursive_eq]
      constructor
      · intro hmx
        exact ⟨hx, (hmem x).mp hmx⟩
      · intro hx2
        exact (hmem x).mpr hx2.2
  · rw [TreapSet.remove, if_neg hm]
    constructor
    · intro hmx
      refine ⟨?_, (hmem x).mp hmx⟩
      rintro rfl
      exact hm hmx
    · intro hx2
      exact (hmem x).mpr hx2.2

theorem RS_clear {s : TreapSet} {A : Finset Int} (_ : RS s A) : RS s.clear ∅ := by
  refine ⟨setInv_clear s, ?_⟩
  intro x
  simp [TreapSet.member, TreapSet.clear, memberRecursive]

theorem runS_abs : ∀ (ops : List SetOp) (ps : List Int) (s : TreapSet) (A : Finset Int),
    RS s A → RS (runS s ops ps) (absSet A ops) := by
  intro ops
  induction ops with
  | nil =>
      intro ps s A h
      rw [runS, absSet]
      exact h
  | cons op ops ih =>
      intro ps s A h
      cases op with
      | ins k =>
          rw [runS, absSet]
          exact ih ps.tail _ _ (RS_insert h k (ps.headD 0))
      | rem k =>
          rw [runS, absSet]
          exact ih ps.tail _ _ (RS_remove h k)
      | clr =>
          rw [runS, absSet]
          exact ih ps.tail _ _ (RS_clear h)

theorem RS_card {s : TreapSet} {A : Finset Int} (h : RS s A) :
    s.nodeCount = (A.card : Int) := by
  obtain ⟨⟨⟨hb, hh⟩, hc⟩, hmem⟩ := h
  have hnodup : (keys s.root).Nodup := by
    have hpw := (bst_iff_pairwise s.root).mp hb
    exact hpw.imp (fun hab => ne_of_lt hab)
  have hfin : (keys s.root).toFinset = A := by
    ext x
    rw [List.mem_toFinset]
    rw [← isSome_findValue_iff hb x, ← memberRecursive_eq]
    exact hmem x
  have hlen : (keys s.root).length = A.card := by
    rw [← hfin, List.toFinset_card_of_nodup hnodup]
  rw [hc, size_eq_length_keys, hlen]

theorem RM_empty : RM TreapMap.empty (fun _ => none) := ⟨mapInv_empty, fun _ => rfl⟩

theorem RM_insert {m : TreapMap} {f : Int → Option Value} (h : RM m f) (k : Int)
    (v : Value) (p : Int) :
    RM (m.insert k v p) (fun x => if x = k then some v else f x) := by
  obtain ⟨⟨hb, hh⟩, hf⟩ := h
  refine ⟨mapInv_insert ⟨hb, hh⟩ k v p, ?_⟩
  intro x
  show findValue (insertRecursive m.root k v p) x = _
  rw [ins_find hb k v p x, hf x]

theorem RM_remove {m : TreapMap} {f : Int → Option Value} (h : RM m f) (k : Int) :
    RM (m.remove k) (fun x => if x = k then none else f x) := by
  obtain ⟨⟨hb, hh⟩, hf⟩ := h
  refine ⟨mapInv_remove ⟨hb, hh⟩ k, ?_⟩
  intro x
  show findValue (removeRecursive m.root k) x = _
  rw [rem_find hb k x, hf x]

theorem RM_clear {m : TreapMap} {f : Int → Option Value} (_ : RM m f) :
    RM m.clear (fun _ => none) := ⟨mapInv_clear m, fun _ => rfl⟩

theorem runM_abs : ∀ (ops : List MapOp) (ps : List Int) (m : TreapMap)
    (f : Int → Option Value), RM m f → RM (runM m ops ps) (absMap f ops) := by
  intro ops
  induction ops with
  | nil =>
      intro ps m f h
      rw [runM, absMap]
      exact h
  | cons op ops ih =>
      intro ps m f h
      cases op with
      | ins k v =>
          rw [runM, absMap]
          exact ih ps.tail _ _ (RM_insert h k v (ps.headD 0))
      | rem k =>
          rw [runM, absMap]
          exact ih ps.tail _ _ (RM_remove h k)
      | clr =>
          rw [runM, absMap]
          exact ih ps.tail _ _ (RM_clear h)

theorem steps_leaf {V : Type} (k : Int) : removeSteps (leaf : Tree V) k = 1 := by
  rw [removeSteps.eq_def]

theorem steps_lt {V : Type} {k nk : Int} (h : k < nk) (nv : V) (np : Int) (l r : Tree V) :
    removeSteps (node nk nv np l r) k = 1 + removeSteps l k := by
  rw [removeSteps.eq_def]
  dsimp only
  rw [if_pos h]

theorem steps_gt {V : Type} {k nk : Int} (h : nk < k) (nv : V) (np : Int) (l r : Tree V) :
    removeSteps (node nk nv np l r) k = 1 + removeSteps r k := by
  rw [removeSteps.eq_def]
  dsimp only
  rw [if_neg (by omega), if_pos h]

theorem steps_self_left_leaf {V : Type} (nk : Int) (nv : V) (np : Int) (r : Tree V) :
    removeSteps (node nk nv np leaf r) nk = 1 := by
  rw [removeSteps.eq_def]
  dsimp only
  rw [if_neg (by omega), if_neg (by omega)]

theorem steps_self_right_leaf {V : Type} (nk : Int) (nv : V) (np lk : Int) (lv : V)
    (lp : Int) (ll lr : Tree V) :
    removeSteps (node nk nv np (node lk lv lp ll lr) leaf) nk = 1 := by
  rw [removeSteps.eq_def]
  dsimp only
  rw [if_neg (by omega), if_neg (by omega)]

theorem steps_self_two_left {V : Type} {lp rp : Int} (h : lp > rp) (nk : Int) (nv : V)
    (np lk : Int) (lv : V) (ll lr : Tree V) (rk : Int) (rv : V) (rl rr : Tree V) :
    removeSteps (node nk nv np (node lk lv lp ll lr) (node rk rv rp rl rr)) nk =
      1 + removeSteps (node nk nv np lr (node rk rv rp rl rr)) nk := by
  rw [removeSteps.eq_def]
  dsimp only
  rw [if_neg (by omega), if_neg (by omega), if_pos h]

theorem steps_self_two_right {V : Type} {lp rp : Int} (h : ¬lp > rp) (nk : Int) (nv : V)
    (np lk : Int) (lv : V) (ll lr : Tree V) (rk : Int) (rv : V) (rl rr : Tree V) :
    removeSteps (node nk nv np (node lk lv lp ll lr) (node rk rv rp rl rr)) nk =
      1 + removeSteps (node nk nv np (node lk lv lp ll lr) rl) nk := by
  rw [removeSteps.eq_def]
  dsimp only
  rw [if_neg (by omega), if_neg (by omega), if_neg h]

theorem height_left_lt {V : Type} (k : Int) (v : V) (p : Int) (l r : Tree V) :
    height l < height (node k v p l r) := by
  simp only [height]
  have := Nat.le_max_left (height l) (height r)
  omega

theorem height_right_lt {V : Type} (k : Int) (v : V) (p : Int) (l r : Tree V) :
    height r < height (node k v p l r) := by
  simp only [height]
  have := Nat.le_max_right (height l) (height r)
  omega

theorem stepsRoot_aux {V : Type} :
    ∀ (n : Nat) (k : Int) (v : V) (p : Int) (l r : Tree V), size l + size r ≤ n →
      removeSteps (node k v p l r) k ≤ 2 + height l + height r := by
  intro n
  induction n with
  | zero =>
      intro k v p l r hs
      cases l with
      | leaf => rw [steps_self_left_leaf]; omega
      | node lk lv lp ll lr => simp [size] at hs
  | succ n ih =>
      intro k v p l r hs
      cases l with
      | leaf => rw [steps_self_left_leaf]; omega
      | node lk lv lp ll lr =>
          cases r with
          | leaf => rw [steps_self_right_leaf]; omega
          | node rk rv rp rl rr =>
              simp only [size] at hs
              by_cases h3 : lp > rp
              · rw [steps_self_two_left h3]
                have hb := ih k v p lr (node rk rv rp rl rr) (by simp [size]; omega)
                have hh := height_right_lt lk lv lp ll lr
                omega
              · rw [steps_self_two_right h3]
                have hb := ih k v p (node lk lv lp ll lr) rl (by simp [size]; omega)
                have hh := height_left_lt rk rv rp rl rr
                omega

theorem stepsRoot {V : Type} (k : Int) (v : V) (p : Int) (l r : Tree V) :
    removeSteps (node k v p l r) k ≤ 2 + height l + height r :=
  stepsRoot_aux (size l + size r) k v p l r le_rfl

theorem removeSteps_le {V : Type} (k : Int) :
    ∀ t : Tree V, removeSteps t k ≤ 3 + 2 * height t := by
  intro t
  induction t with
  | leaf => rw [steps_leaf]; simp [height]
  | node nk nv np l r ihl ihr =>
      by_cases h1 : k < nk
      · rw [steps_lt h1]
        have h5 := height_left_lt nk nv np l r
        omega
      · by_cases h2 : nk < k
        · rw [steps_gt h2]
          have h5 := height_right_lt nk nv np l r
          omega
        · have hkeq : k = nk := by omega
          subst hkeq
          have h6 := stepsRoot k nv np l r
          have h7 := height_left_lt k nv np l r
          have h8 := height_right_lt k nv np l r
          omega

theorem bool_eq_of_iff {a b : Bool} (h : a = true ↔ b = true) : a = b := by
  cases a <;> cases b <;> simp_all

/-- C1: for every tree reachable from an empty `TreapSet` or `TreapMap` by the
public operations, the in-order traversal of the keys is strictly increasing
(BST invariant, hence also no duplicate keys). -/
theorem C1 : (∀ s : TreapSet, ReachS s → (keys s.root).Pairwise (fun a b => a < b)) ∧
    (∀ m : TreapMap, ReachM m → (keys m.root).Pairwise (fun a b => a < b)) :=
  ⟨fun _ h => (bst_iff_pairwise _).mp (reachS_inv h).1.1,
   fun _ h => (bst_iff_pairwise _).mp (reachM_inv h).1⟩

theorem C1_witness :
    (keys ((TreapSet.empty.insert 5 1).insert 3 2).root).Pairwise (fun a b => a < b) :=
  C1.1 _ (ReachS.insert _ 3 2 (ReachS.insert _ 5 1 ReachS.empty))

/-- C2, counterexample to the claim as stated: the strict heap invariant
(parent priority strictly greater than each present child's) fails on a
reachable state as soon as two priorities tie, because the code only rotates
on a strict comparison.  Inserting keys 0 and 1 with equal priority 7 yields
a reachable `TreapSet` whose root and child share priority 7. -/
theorem C2_counterexample :
    ReachS ((TreapSet.empty.insert 0 7).insert 1 7) ∧
      strictHeap ((TreapSet.empty.insert 0 7).insert 1 7).root = false :=
  ⟨ReachS.insert _ 1 7 (ReachS.insert _ 0 7 ReachS.empty), by decide⟩

/-- C2, amended: for every reachable `TreapSet` or `TreapMap` state, the
non-strict max-heap invariant holds: every node's priority is greater than
or equal to the priority of each present child. -/
theorem C2 : (∀ s : TreapSet, ReachS s → heap s.root = true) ∧
    (∀ m : TreapMap, ReachM m → heap m.root = true) :=
  ⟨fun _ h => (reachS_inv h).1.2, fun _ h => (reachM_inv h).2⟩

theorem C2_witness : heap ((TreapSet.empty.insert 0 7).insert 1 7).root = true :=
  C2.1 _ (ReachS.insert _ 1 7 (ReachS.insert _ 0 7 ReachS.empty))

/-- C3: for every reachable state and key `k`, after `remove(k)` the key is
no longer a member (whatever the shape at removal time); the Set's `size()`
decreases by exactly 1 if `k` was present and 0 otherwise; removing an
absent key leaves the state unchanged.  The same holds for the Map's
`remove`/`contains`. -/
theorem C3 : (∀ (s : TreapSet) (k : Int), ReachS s →
      (s.remove k).member k = false ∧
      (s.remove k).size = s.size - (if s.member k then 1 else 0) ∧
      (s.member k = false → s.remove k = s)) ∧
    (∀ (m : TreapMap) (k : Int), ReachM m →
      (m.remove k).contains k = false ∧
      (m.contains k = false → m.remove k = m)) := by
  constructor
  · intro s k h
    obtain ⟨⟨hb, hh⟩, hc⟩ := reachS_inv h
    refine ⟨?_, ?_, ?_⟩
    · by_cases hm : s.member k = true
      · have hpair : removeRecursiveS s.root k = (removeRecursive s.root k, 1) := by
          rw [removeRecursiveS_eq, show memberRecursive s.root k = true from hm]
          rfl
        rw [TreapSet.remove, if_pos hm]
        show memberRecursive (removeRecursiveS s.root k).1 k = false
        rw [hpair]
        show memberRecursive (removeRecursive s.root k) k = false
        rw [memberRecursive_eq, rem_find hb k k, if_pos rfl]
        rfl
      · rw [TreapSet.remove, if_neg hm]
        show s.member k = false
        simpa using hm
    · by_cases hm : s.member k = true
      · have hpair : removeRecursiveS s.root k = (removeRecursive s.root k, 1) := by
          rw [removeRecursiveS_eq, show memberRecursive s.root k = true from hm]
          rfl
        rw [TreapSet.remove, if_pos hm, hpair]
        simp [TreapSet.size, hm]
      · rw [TreapSet.remove, if_neg hm]
        have hmf : s.member k = false := by simpa using hm
        simp [TreapSet.size, hmf]
    · intro hmf
      rw [TreapSet.remove, if_neg (by simp [hmf])]
  · intro m k h
    obtain ⟨hb, hh⟩ := reachM_inv h
    constructor
    · show Treap.contains (removeRecursive m.root k) k = false
      rw [contains_eq_isSome, rem_find hb k k, if_pos rfl]
      rfl
    · intro hcf
      have hfn : findValue m.root k = none := by
        have h1 : Treap.contains m.root k = false := hcf
        rw [contains_eq_isSome] at h1
        cases hfv : findValue m.root k with
        | none => rfl
        | some v => rw [hfv] at h1; simp at h1
      show TreapMap.mk (removeRecursive m.root k) = m
      rw [rem_absent hfn]

theorem C3_witness :
    (((TreapSet.empty.insert 4 9).remove 4).member 4 = false ∧
      ((TreapSet.empty.insert 4 9).remove 4).size =
        (TreapSet.empty.insert 4 9).size -
          (if (TreapSet.empty.insert 4 9).member 4 then 1 else 0) ∧
      ((TreapSet.empty.insert 4 9).member 4 = false →
        (TreapSet.empty.insert 4 9).remove 4 = TreapSet.empty.insert 4 9)) :=
  C3.1 (TreapSet.empty.insert 4 9) 4 (ReachS.insert _ 4 9 ReachS.empty)

/-- C4: for every reachable `TreapSet` state, `size()` equals the number of
nodes reachable from the root (equivalently, the number of stored keys), and
over any operation sequence it equals the cardinality of the mathematical
set of keys inserted and not since removed (duplicate inserts and absent
removes contributing zero). -/
theorem C4 : (∀ s : TreapSet, ReachS s →
      s.size = (size s.root : Int) ∧ s.size = ((keys s.root).length : Int)) ∧
    (∀ (ops : List SetOp) (ps : List Int),
      (runS TreapSet.empty ops ps).size = ((absSet ∅ ops).card : Int)) := by
  constructor
  · intro s h
    have hc := (reachS_inv h).2
    refine ⟨hc, ?_⟩
    rw [show s.size = s.nodeCount from rfl, hc, size_eq_length_keys]
  · intro ops ps
    exact RS_card (runS_abs ops ps TreapSet.empty ∅ RS_empty)

theorem C4_witness :
    ((TreapSet.empty.insert 2 3).size = (size (TreapSet.empty.insert 2 3).root : Int) ∧
      (TreapSet.empty.insert 2 3).size =
        ((keys (TreapSet.empty.insert 2 3).root).length : Int)) :=
  C4.1 _ (ReachS.insert _ 2 3 ReachS.empty)

/-- C5: `rotateRight` on a node with non-empty left child promotes that child
exactly as specified (and symmetrically for `rotateLeft`); both rotations
preserve the in-order key sequence (hence the key set) unconditionally, and
preserve the BST invariant.  The structural equations also show the child
access is total under the non-empty-child precondition. -/
theorem C5 :
    (∀ (V : Type) (nk : Int) (nv : V) (np lk : Int) (lv : V) (lp : Int)
        (ll lr r : Tree V),
      rotateRight (node nk nv np (node lk lv lp ll lr) r) =
        node lk lv lp ll (node nk nv np lr r)) ∧
    (∀ (V : Type) (nk : Int) (nv : V) (np rk : Int) (rv : V) (rp : Int)
        (l rl rr : Tree V),
      rotateLeft (node nk nv np l (node rk rv rp rl rr)) =
        node rk rv rp (node nk nv np l rl) rr) ∧
    (∀ (V : Type) (t : Tree V), keys (rotateRight t) = keys t ∧
        keys (rotateLeft t) = keys t) ∧
    (∀ (V : Type) (t : Tree V), bst t = true →
        bst (rotateRight t) = true ∧ bst (rotateLeft t) = true) := by
  refine ⟨?_, ?_, ?_, ?_⟩
  · intro V nk nv np lk lv lp ll lr r
    rfl
  · intro V nk nv np rk rv rp l rl rr
    rfl
  · intro V t
    exact ⟨keys_rotateRight t, keys_rotateLeft t⟩
  · intro V t hb
    exact ⟨bst_rotateRight hb, bst_rotateLeft hb⟩

theorem C5_witness :
    bst (rotateRight (node 2 () 5 (node 1 () 9 leaf leaf) leaf : Tree Unit)) = true :=
  (C5.2.2.2 Unit (node 2 () 5 (node 1 () 9 leaf leaf) leaf) (by decide)).1

/-- C6: for every reachable `TreapMap` state, `find(k, d)` returns the value
currently bound to `k` when the binding is present, and the caller-supplied
default `d` when `k` is absent; absence is a normal outcome (the function is
total and touches no state in this embedding). -/
theorem C6 : ∀ (m : TreapMap) (k : Int) (d : Value), ReachM m →
    (∀ v, (k, v) ∈ entries m.root → m.find k d = v) ∧
    (k ∉ keys m.root → m.find k d = d) := by
  intro m k d h
  obtain ⟨hb, hh⟩ := reachM_inv h
  constructor
  · intro v hv
    show Treap.find m.root k d = v
    rw [find_eq_findValue, findValue_of_mem_entries hb hv]
    rfl
  · intro hk
    show Treap.find m.root k d = d
    rw [find_eq_findValue]
    have hfn : findValue m.root k = none := by
      cases hfv : findValue m.root k with
      | none => rfl
      | some v =>
          exfalso
          apply hk
          rw [← isSome_findValue_iff hb k, hfv]
          rfl
    rw [hfn]
    rfl

theorem C6_witness :
    (TreapMap.empty.insert 1 ("a") 5).find 1 ("z") = ("a") ∧
      (TreapMap.empty.insert 1 ("a") 5).find 2 ("z") = ("z") := by
  constructor
  · exact (C6 _ 1 ("z") (ReachM.insert _ 1 ("a") 5 ReachM.empty)).1 ("a") (by decide)
  · exact (C6 _ 2 ("z") (ReachM.insert _ 1 ("a") 5 ReachM.empty)).2 (by decide)

/-- C7: overwriting insert.  If `k` is already present in a reachable
`TreapMap`, `insert(k, v2)` only rewrites the stored value: `find` then
returns `v2`, the value-erased skeleton (keys, priorities and shape) is
unchanged, every other binding is unaffected, and the node count does not
grow. -/
theorem C7 : ∀ (m : TreapMap) (k : Int) (v : Value) (p : Int) (d : Value), ReachM m →
    m.contains k = true →
    ((m.insert k v p).find k d = v ∧
      skeleton (m.insert k v p).root = skeleton m.root ∧
      (∀ x d2, x ≠ k → (m.insert k v p).find x d2 = m.find x d2) ∧
      size (m.insert k v p).root = size m.root) := by
  intro m k v p d h hc
  obtain ⟨hb, hh⟩ := reachM_inv h
  have hin : (findValue m.root k).isSome = true := by
    rw [← contains_eq_isSome]
    exact hc
  have hskel : skeleton (insertRecursive m.root k v p) = skeleton m.root :=
    ins_skeleton hh k v p hin
  refine ⟨?_, hskel, ?_, ?_⟩
  · show Treap.find (insertRecursive m.root k v p) k d = v
    rw [find_eq_findValue, ins_find hb k v p k, if_pos rfl]
    rfl
  · intro x d2 hx
    show Treap.find (insertRecursive m.root k v p) x d2 = Treap.find m.root x d2
    rw [find_eq_findValue, find_eq_findValue, ins_find hb k v p x, if_neg hx]
  · show size (insertRecursive m.root k v p) = size m.root
    rw [← size_skeleton, hskel, size_skeleton]

theorem C7_witness :
    ((TreapMap.empty.insert 1 ("a") 5).insert 1 ("b") 3).find 1 ("z") = ("b") ∧
      skeleton ((TreapMap.empty.insert 1 ("a") 5).insert 1 ("b") 3).root
        = skeleton (TreapMap.empty.insert 1 ("a") 5).root := by
  have h := C7 (TreapMap.empty.insert 1 ("a") 5) 1 ("b") 3 ("z")
    (ReachM.insert _ 1 ("a") 5 ReachM.empty) (by decide)
  exact ⟨h.1, h.2.1⟩

/-- C8: insert is idempotent.  On any reachable state, inserting the same
arguments twice in a row produces a state equal to inserting them once
(for the Set the second call is skipped by the membership guard; for the Map
the second call overwrites the value with itself and performs no rotation),
so in particular a duplicate Set insert changes nothing and does not touch
the cardinality. -/
theorem C8 : (∀ (s : TreapSet) (k p q : Int), ReachS s →
      (s.insert k p).insert k q = s.insert k p) ∧
    (∀ (m : TreapMap) (k : Int) (v : Value) (p q : Int), ReachM m →
      (m.insert k v p).insert k v q = m.insert k v p) := by
  constructor
  · intro s k p q h
    have hinv := reachS_inv h
    have hm : (s.insert k p).member k = true := by
      by_cases hm0 : s.member k = true
      · rw [TreapSet.insert, if_pos hm0]
        exact hm0
      · have hmemf : memberRecursive s.root k = false := by
          simpa [TreapSet.member] using hm0
        have hpair : insertRecursiveS s.root k p = (insertRecursive s.root k () p, 1) := by
          rw [insertRecursiveS_eq, hmemf]
          rfl
        rw [TreapSet.insert, if_neg hm0]
        show memberRecursive (insertRecursiveS s.root k p).1 k = true
        rw [hpair]
        show memberRecursive (insertRecursive s.root k () p) k = true
        rw [memberRecursive_eq, ins_find hinv.1.1 k () p k, if_pos rfl]
        rfl
    rw [TreapSet.insert, if_pos hm]
  · intro m k v p q h
    have hinv := reachM_inv h
    have hfv : findValue (m.insert k v p).root k = some v := by
      show findValue (insertRecursive m.root k v p) k = some v
      rw [ins_find hinv.1 k v p k, if_pos rfl]
    have hinv1 := mapInv_insert hinv k v p
    show TreapMap.mk (insertRecursive (m.insert k v p).root k v q) = m.insert k v p
    rw [ins_same hinv1.2 q hfv]

theorem C8_witness :
    ((TreapSet.empty.insert 3 5).insert 3 8 = TreapSet.empty.insert 3 5) ∧
      ((TreapMap.empty.insert 3 ("c") 5).insert 3 ("c") 8
        = TreapMap.empty.insert 3 ("c") 5) :=
  ⟨C8.1 TreapSet.empty 3 5 8 ReachS.empty,
   C8.2 TreapMap.empty 3 ("c") 5 8 ReachM.empty⟩

/-- C9, counterexample to the claim as stated: the spec asserts that in the
two-child case "each rotation strictly reduces the removed node's depth by
one".  On the concrete treap with root key 2 (priority 10), left child key 1
(priority 5) and right child key 3 (priority 4), removing key 2 rotates
right (5 > 4) and continues in the right subtree; the rotation moves the
removed node from depth 0 to depth 1 — the depth strictly increases. -/
theorem C9_counterexample :
    removeRecursive
        (node 2 () 10 (node 1 () 5 leaf leaf) (node 3 () 4 leaf leaf) : Tree Unit) 2
      = node 1 () 5 leaf
          (removeRecursive (node 2 () 10 leaf (node 3 () 4 leaf leaf) : Tree Unit) 2) ∧
    rotateRight (node 2 () 10 (node 1 () 5 leaf leaf) (node 3 () 4 leaf leaf) : Tree Unit)
      = node 1 () 5 leaf (node 2 () 10 leaf (node 3 () 4 leaf leaf)) ∧
    depthOf (node 2 () 10 (node 1 () 5 leaf leaf) (node 3 () 4 leaf leaf) : Tree Unit) 2
      = some 0 ∧
    depthOf (node 1 () 5 leaf (node 2 () 10 leaf (node 3 () 4 leaf leaf)) : Tree Unit) 2
      = some 1 :=
  ⟨remove_node_self_two_left (by omega) 2 () 10 1 () leaf leaf 3 () leaf leaf,
   rfl, by decide, by decide⟩

/-- C9, amended: the two-child case of remove does terminate, but because
each rotation strictly shrinks the subtree handed to the recursive call (the
removed node's depth increases by one; the spec has the direction backwards),
and the total number of recursive calls is linear in the height of the tree
(at most `2 * height + 3`). -/
theorem C9 : (∀ (V : Type) (t : Tree V) (k : Int),
      removeSteps t k ≤ 3 + 2 * height t) ∧
    (∀ (V : Type) (nk : Int) (nv : V) (np lk : Int) (lv : V) (lp : Int)
        (ll lr : Tree V) (rk : Int) (rv : V) (rp : Int) (rl rr : Tree V),
      size (node nk nv np lr (node rk rv rp rl rr)) <
          size (node nk nv np (node lk lv lp ll lr) (node rk rv rp rl rr)) ∧
        size (node nk nv np (node lk lv lp ll lr) rl) <
          size (node nk nv np (node lk lv lp ll lr) (node rk rv rp rl rr))) := by
  constructor
  · intro V t k
    exact removeSteps_le k t
  · intro V nk nv np lk lv lp ll lr rk rv rp rl rr
    constructor <;> (simp [size]; try omega)

/-- C10: the observable answers are independent of the random priorities.
Running the same operation sequence from the empty structure with two
different priority streams yields identical results for `member` and
`size()` (Set) and for `find` and `contains` (Map): the randomness only
influences tree shape. -/
theorem C10 : (∀ (ops : List SetOp) (ps1 ps2 : List Int),
      (∀ k, (runS TreapSet.empty ops ps1).member k
          = (runS TreapSet.empty ops ps2).member k) ∧
      (runS TreapSet.empty ops ps1).size = (runS TreapSet.empty ops ps2).size) ∧
    (∀ (ops : List MapOp) (ps1 ps2 : List Int),
      (∀ k d, (runM TreapMap.empty ops ps1).find k d
          = (runM TreapMap.empty ops ps2).find k d) ∧
      (∀ k, (runM TreapMap.empty ops ps1).contains k
          = (runM TreapMap.empty ops ps2).contains k)) := by
  constructor
  · intro ops ps1 ps2
    have h1 := runS_abs ops ps1 TreapSet.empty ∅ RS_empty
    have h2 := runS_abs ops ps2 TreapSet.empty ∅ RS_empty
    constructor
    · intro k
      apply bool_eq_of_iff
      rw [h1.2 k, h2.2 k]
    · show (runS TreapSet.empty ops ps1).nodeCount
          = (runS TreapSet.empty ops ps2).nodeCount
      rw [RS_card h1, RS_card h2]
  · intro ops ps1 ps2
    have h1 := runM_abs ops ps1 TreapMap.empty (fun _ => none) RM_empty
    have h2 := runM_abs ops ps2 TreapMap.empty (fun _ => none) RM_empty
    constructor
    · intro k d
      show Treap.find (runM TreapMap.empty ops ps1).root k d
          = Treap.find (runM TreapMap.empty ops ps2).root k d
      rw [find_eq_findValue, find_eq_findValue, h1.2 k, h2.2 k]
    · intro k
      show Treap.contains (runM TreapMap.empty ops ps1).root k
          = Treap.contains (runM TreapMap.empty ops ps2).root k
      rw [contains_eq_isSome, contains_eq_isSome, h1.2 k, h2.2 k]

end Treap
